import Mathlib

/-!
Verification of the tabular record normalizer of `sheet_to_json.py`
(`_col_to_index`, `SheetProcessor.process`, `_process_row`, `_parse_singers`,
`_sort_key`, and the two regular expressions `SINGER_PATTERN` and
`SINGER_SPLIT_PATTERN`).

The Python code is shallowly embedded: strings are Lean `String`s (lists of
characters), Python `list` indexing and slicing keep Python's negative-index
semantics, and the spots where the Python code can raise
(`IndexError` from a negative out-of-range index, `AttributeError` from
calling `extend` on a string, `KeyError` from a missing dict key) are modelled
with `Except PyError`.  Python's `str.strip`, `str.upper`, `int(...)` and the
`\s` regex class are modelled on their ASCII behaviour, which is exact for
every input the claims are about.
-/

/-- Exceptions the embedded fragment of the Python code can raise. -/
inductive PyError where
  | indexError : PyError
  | attributeError : PyError
  | keyError : PyError
deriving DecidableEq, Repr

/-- A record value: Python `str` or Python `list[str]`. -/
inductive PyVal where
  | str : String → PyVal
  | arr : List String → PyVal
deriving DecidableEq, Repr

/-- One entry of `column_mapping`: `{"key": ..., "is_array": ...}`,
`is_array` defaulting to `False` when absent (`mapping.get("is_array", False)`). -/
structure ColMap where
  key : String
  is_array : Bool := false
deriving DecidableEq, Repr

/-- The part of `Config` that `SheetProcessor` reads.  `column_mapping` is a
Python dict and is modelled as an insertion-ordered association list;
`ignore_values` is a set used only for membership tests. -/
structure SheetConfig where
  data_start_row : Int
  end_check_start : String
  end_check_end : String
  column_mapping : List (String × ColMap)
  ignore_values : List String
deriving DecidableEq, Repr

/-- The characters Python's `str.strip()` and the regex class `\s` treat as
whitespace (ASCII portion: space, tab, newline, carriage return, vertical
tab, form feed). -/
def pyIsSpace (c : Char) : Bool :=
  c == ' ' || c == '\t' || c == '\n' || c == '\r' ||
  c == Char.ofNat 11 || c == Char.ofNat 12

/-- `str.strip()` on a list of characters. -/
def stripChars (l : List Char) : List Char :=
  ((l.dropWhile pyIsSpace).reverse.dropWhile pyIsSpace).reverse

/-- `str.strip()` on a `String`. -/
def pyStrip (s : String) : String :=
  String.mk (stripChars s.data)

/-- `ord(char.upper())` for a single character (ASCII: `a`..`z` are mapped to
`A`..`Z`, everything else is unchanged, as Python's `str.upper` does on the
ASCII range). -/
def upperOrd (c : Char) : Nat :=
  if 97 ≤ c.toNat && c.toNat ≤ 122 then c.toNat - 32 else c.toNat

/-- One step of the loop body of `_col_to_index`:
`index = index * 26 + (ord(char) - ord("A") + 1)`. -/
def colStep (ix : Int) (c : Char) : Int :=
  ix * 26 + ((upperOrd c : Int) - 65 + 1)

/-- `_col_to_index(col)`: the base-26 loop followed by `return index - 1`.
No validation of any kind is performed by the source. -/
def colToIndex (col : String) : Int :=
  (col.data.foldl colStep 0) - 1

/-- Python `row[i]` on a `list`, with negative-index wrap-around; raises
`IndexError` exactly when Python does. -/
def pyListGet (row : List String) (i : Int) : Except PyError String :=
  if 0 ≤ i then
    match row[i.toNat]? with
    | some c => .ok c
    | none => .error .indexError
  else
    if 0 ≤ (row.length : Int) + i then
      match row[((row.length : Int) + i).toNat]? with
      | some c => .ok c
      | none => .error .indexError
    else .error .indexError

/-- `row[col_idx].strip() if col_idx < len(row) and row[col_idx] else ""`:
the guard short-circuits, so `row[col_idx]` is evaluated only when
`col_idx < len(row)` (which still admits negative indices). -/
def getCellValue (row : List String) (i : Int) : Except PyError String :=
  if i < (row.length : Int) then
    match pyListGet row i with
    | .error e => .error e
    | .ok c => .ok (if c == "" then "" else pyStrip c)
  else .ok ""

/-- Clamp a Python slice bound to `[0, len]` (slice semantics for step 1):
a negative bound counts from the end (clamped at 0), a positive one is
clamped at `len`.  `Int.toNat` maps negative values to 0, which is exactly
`max(len + x, 0)`. -/
def pySliceNorm (len : Nat) (x : Int) : Nat :=
  if x < 0 then ((len : Int) + x).toNat else min x.toNat len

/-- Python `l[a : b]` (step 1). -/
def pySlice (l : List String) (a b : Int) : List String :=
  (l.take (pySliceNorm l.length b)).drop (pySliceNorm l.length a)

/-- Python `l[a :]` on the grid (used for `sheet_data[data_start_row - 1 :]`). -/
def pySliceFrom (l : List (List String)) (a : Int) : List (List String) :=
  l.drop (pySliceNorm l.length a)

/-- Python `str.split(sep)` for a single-character separator: every
occurrence splits, empty pieces are kept, the empty string yields `[""]`. -/
def splitOnChar (sep : Char) : List Char → List (List Char)
  | [] => [[]]
  | c :: cs =>
    if c == sep then [] :: splitOnChar sep cs
    else
      match splitOnChar sep cs with
      | p :: ps => (c :: p) :: ps
      | [] => [[c]]

/-- Boolean list membership (Python's `in` on lists and sets of strings). -/
def memB (x : String) : List String → Bool
  | [] => false
  | y :: ys => x == y || memB x ys

/-- Whether `nd` is an initial segment of `l`. -/
def startsWithChars : List Char → List Char → Bool
  | [], _ => true
  | _ :: _, [] => false
  | a :: as, b :: bs => a == b && startsWithChars as bs

/-- Python's substring test `nd in s` on character lists. -/
def hasSubChars (nd : List Char) : List Char → Bool
  | [] => startsWithChars nd []
  | c :: rest => startsWithChars nd (c :: rest) || hasSubChars nd rest

/-- Accumulate ASCII decimal digits, failing on any other character. -/
def digitsToNatGo (acc : Nat) : List Char → Option Nat
  | [] => some acc
  | c :: cs =>
    if 48 ≤ c.toNat && c.toNat ≤ 57 then digitsToNatGo (acc * 10 + (c.toNat - 48)) cs
    else none

/-- A nonempty run of ASCII decimal digits as a number. -/
def digitsToNat (l : List Char) : Option Nat :=
  if l.isEmpty then none else digitsToNatGo 0 l

/-- Python `int(s)` for decimal strings: surrounding whitespace is ignored,
one optional sign, then a nonempty digit run; `none` models `ValueError`. -/
def pyParseInt (s : String) : Option Int :=
  match stripChars s.data with
  | [] => none
  | '+' :: ds => (digitsToNat ds).map (fun n => (n : Int))
  | '-' :: ds => (digitsToNat ds).map (fun n => -(n : Int))
  | ds => (digitsToNat ds).map (fun n => (n : Int))

/-!
The model of `SINGER_SPLIT_PATTERN = re.compile(r",\s*(?![^[]*\])")` used by
`re.split`.  A comma is a split point exactly when the negative lookahead
holds after the greedily consumed whitespace; since whitespace characters are
themselves in `[^[]`, the lookahead does not depend on how much whitespace
was consumed: the comma splits iff the remainder of the string has no `]`
occurring before the first `[`.  A successful match consumes the comma and
the whitespace run after it.
-/

/-- Dropping a matching initial segment never lengthens a list. -/
theorem dropWhileLengthLe (p : Char → Bool) :
    ∀ l : List Char, (l.dropWhile p).length ≤ l.length := by
  intro l
  induction l with
  | nil => simp
  | cons c cs ih =>
    simp only [List.dropWhile]
    cases p c with
    | true => exact Nat.le_succ_of_le ih
    | false => simp

/-- True iff the lookahead `(?![^[]*\])` holds: scanning the remainder, no
`]` appears before the first `[`. -/
def noCloseBefore : List Char → Bool
  | [] => true
  | c :: cs => if c == ']' then false else if c == '[' then true else noCloseBefore cs

/-- The `re.split(SINGER_SPLIT_PATTERN, value)` scan; `cur` holds the
characters of the current piece in reverse, and `skipping` is set right
after a split so that the whitespace the greedy `\s*` consumes is skipped
before the next piece starts. -/
def singerSplitAux (skipping : Bool) (cur : List Char) : List Char → List (List Char)
  | [] => [cur.reverse]
  | c :: rest =>
    if skipping && pyIsSpace c then singerSplitAux true cur rest
    else if c == ',' && noCloseBefore rest then
      cur.reverse :: singerSplitAux true [] rest
    else singerSplitAux false (c :: cur) rest

/-!
The model of `SINGER_PATTERN = re.compile(r"(.+?)\[(.+?)\]$")` used through
`re.match`, i.e. anchored at the start.  Both groups are lazy and `.` does
not match a newline, so a successful match decomposes the input as
`g1 ++ "[" ++ g2 ++ "]"` where the final `]` is the last character, both
groups are nonempty and newline-free, and backtracking selects the leftmost
`[` (with at least one character before it) for which the rest succeeds.
`$` is modelled as end-of-string: the inputs the code feeds to `re.match`
are already stripped, so the match-before-trailing-newline case of `$` is
unreachable.
-/

/-- The attempt `\[(.+?)\]$` on the text after a candidate `[`: it succeeds
iff that text is `body ++ "]"` with `body` nonempty and newline-free. -/
def bodyCheckB (rest : List Char) : Option (List Char) :=
  if rest.getLast? == some ']' && 2 ≤ rest.length && !(rest.dropLast.contains '\n') then
    some rest.dropLast
  else none

/-- The backtracking scan of `re.match(SINGER_PATTERN, s)`; `acc` holds the
characters group 1 has consumed so far, in reverse. -/
def smAux (acc : List Char) : List Char → Option (List Char × List Char)
  | [] => none
  | c :: rest =>
    if c == '\n' then none
    else if c == '[' && !acc.isEmpty then
      match bodyCheckB rest with
      | some b => some (acc.reverse, b)
      | none => smAux (c :: acc) rest
    else smAux (c :: acc) rest

/-- `re.match(SINGER_PATTERN, s)` returning `(unit, members_str)`. -/
def singerMatch (s : List Char) : Option (List Char × List Char) :=
  smAux [] s

/-- The tokens one part of the singer cell contributes inside
`_parse_singers`: skip a part that strips to empty; on a pattern match emit
`unit.strip()` followed by the trimmed nonempty members of
`members_str.split(",")`; otherwise emit the stripped part itself. -/
def singerPartTokens (part : List Char) : List String :=
  let sp := stripChars part
  if sp.isEmpty then []
  else
    match singerMatch sp with
    | some (u, members) =>
      String.mk (stripChars u) ::
        (((splitOnChar ',' members).map stripChars).filter (fun m => !m.isEmpty)).map
          (fun m => String.mk m)
    | none => [String.mk sp]

/-- `SheetProcessor._parse_singers(value)`. -/
def parseSingers (value : String) : List String :=
  ((singerSplitAux false [] value.data).map singerPartTokens).flatten

/-- The list comprehension of the default array branch:
`[v.strip() for v in value.split(",") if v.strip()]` — a plain comma split,
not bracket-aware. -/
def defaultSplit (value : String) : List String :=
  (((splitOnChar ',' value.data).map stripChars).filter (fun p => !p.isEmpty)).map
    (fun p => String.mk p)

/-- The cross-brand branch:
`[v.strip() for v in value.split(":") if v.strip() and v.strip() != "越境"]`. -/
def brandSplit (value : String) : List String :=
  (((splitOnChar ':' value.data).map stripChars).filter
      (fun p => !p.isEmpty && !(p == "越境".data))).map
    (fun p => String.mk p)

/-- The dispatch on `key` inside the `is_array` branch of `_process_row`:
the singer key uses `_parse_singers`, the brand key uses the colon split when
the value contains the crossover marker as a substring, everything else uses
the plain comma split. -/
def arrayTokens (key : String) (value : String) : List String :=
  if key == "歌唱" then parseSingers value
  else if key == "ブランド" && hasSubChars "越境".data value.data then brandSplit value
  else defaultSplit value

/-- A record: the Python dict, modelled as an insertion-ordered association
list (its keys are created all at once by `_process_row` and stay unique). -/
def Record := List (String × PyVal)
deriving DecidableEq, Repr

/-- Dict lookup `record.get(key)`. -/
def recGet : Record → String → Option PyVal
  | [], _ => none
  | (k, v) :: r, key => if k = key then some v else recGet r key

/-- Dict assignment `record[key] = v` (replace in place, insert at the end
when absent). -/
def recSet : Record → String → PyVal → Record
  | [], key, v => [(key, v)]
  | (k, w) :: r, key, v =>
    if k = key then (key, v) :: r else (k, w) :: recSet r key v

/-- `record[key].extend(new_values)`: `KeyError` when the key is absent,
`AttributeError` when the stored value is a string. -/
def recExtend (r : Record) (key : String) (newValues : List String) :
    Except PyError Record :=
  match recGet r key with
  | none => .error .keyError
  | some (PyVal.str _) => .error .attributeError
  | some (PyVal.arr xs) => .ok (recSet r key (PyVal.arr (xs ++ newValues)))

/-- `self._array_keys`: output keys of array columns, first occurrence
order, duplicates removed (`dict.fromkeys`). -/
def dedupGo (seen : List String) : List String → List String
  | [] => []
  | x :: xs =>
    if memB x seen then dedupGo seen xs else x :: dedupGo (x :: seen) xs

/-- Order-preserving first-occurrence deduplication (the `seen` set plus
comprehension of `_process_row`, and `dict.fromkeys` in `__init__`). -/
def dedupFirst (l : List String) : List String :=
  dedupGo [] l

/-- `self._array_keys`. -/
def arrayKeysOf (cfg : SheetConfig) : List String :=
  dedupFirst (cfg.column_mapping.filterMap
    (fun p => if p.2.is_array then some p.2.key else none))

/-- `self._ordered_keys`. -/
def orderedKeysOf (cfg : SheetConfig) : List String :=
  dedupFirst (cfg.column_mapping.map (fun p => p.2.key))

/-- The record initialiser of `_process_row`:
`{key: [] if key in self._array_keys else "" for key in self._ordered_keys}`. -/
def initRecord (cfg : SheetConfig) : Record :=
  (orderedKeysOf cfg).map
    (fun k =>
      (k, if memB k (arrayKeysOf cfg) then PyVal.arr [] else PyVal.str ""))

/-- One step of the final deduplication loop of `_process_row` for one key:
`if record.get(key):` skips falsy values (absent key, empty list, empty
string); a nonempty list is deduplicated in place; iterating a nonempty
string yields its characters as one-character strings. -/
def dedupStep (r : Record) (k : String) : Record :=
  match recGet r k with
  | some (PyVal.arr xs) =>
    if xs.isEmpty then r else recSet r k (PyVal.arr (dedupFirst xs))
  | some (PyVal.str s) =>
    if s == "" then r
    else recSet r k (PyVal.arr (dedupFirst (s.data.map Char.toString)))
  | none => r

/-- The final loop `for key in self._array_keys: ...` of `_process_row`. -/
def dedupPass (ks : List String) (r : Record) : Record :=
  ks.foldl dedupStep r

/-- The column loop of `_process_row` over the remaining entries of
`column_mapping`. -/
def processCols (cfg : SheetConfig) (row : List String) :
    List (String × ColMap) → Record → Except PyError Record
  | [], rec => .ok rec
  | (col, m) :: rest, rec =>
    match getCellValue row (colToIndex col) with
    | .error e => .error e
    | .ok value =>
      if value == "" || memB value cfg.ignore_values then
        processCols cfg row rest rec
      else if m.is_array then
        match recExtend rec m.key (arrayTokens m.key value) with
        | .error e => .error e
        | .ok rec2 => processCols cfg row rest rec2
      else
        processCols cfg row rest (recSet rec m.key (PyVal.str value))

/-- `SheetProcessor._process_row(row)`. -/
def processRow (cfg : SheetConfig) (row : List String) : Except PyError Record :=
  match processCols cfg row cfg.column_mapping (initRecord cfg) with
  | .error e => .error e
  | .ok r => .ok (dedupPass (arrayKeysOf cfg) r)

/-- `SheetProcessor._sort_key(item)`: `int(item.get("ID", 0))` with
`ValueError` and `TypeError` (a non-string, non-missing value such as a
list) caught and turned into 0. -/
def sortKey (r : Record) : Int :=
  match recGet r "ID" with
  | some (PyVal.str s) =>
    match pyParseInt s with
    | some n => n
    | none => 0
  | _ => 0

/-- Stable insertion for the descending sort: keep passing elements whose
key is strictly greater, so an element inserted later (i.e. earlier in the
input) lands before every element of equal key. -/
def insertDesc (x : Record) : List Record → List Record
  | [] => [x]
  | y :: ys => if sortKey x < sortKey y then y :: insertDesc x ys else x :: y :: ys

/-- `processed_list.sort(key=self._sort_key, reverse=True)`: CPython's sort
is stable and `reverse=True` keeps equal elements in their original order,
which this insertion sort reproduces. -/
def sortDesc : List Record → List Record
  | [] => []
  | x :: xs => insertDesc x (sortDesc xs)

/-- The end-of-data test of `process`:
`not any(cell.strip() for cell in row[start_col_idx : end_col_idx + 1])`. -/
def isEndRow (cfg : SheetConfig) (row : List String) : Bool :=
  (pySlice row (colToIndex cfg.end_check_start) (colToIndex cfg.end_check_end + 1)).all
    (fun c => pyStrip c == "")

/-- The row loop of `process`: stop at the first fully-empty check range,
otherwise normalize the row and continue; an exception escaping
`_process_row` propagates. -/
def collectRows (cfg : SheetConfig) : List (List String) → Except PyError (List Record)
  | [] => .ok []
  | row :: rest =>
    if isEndRow cfg row then .ok []
    else
      match processRow cfg row with
      | .error e => .error e
      | .ok r =>
        match collectRows cfg rest with
        | .error e => .error e
        | .ok rs => .ok (r :: rs)

/-- The collected (not yet sorted) records of `process`. -/
def collectTop (cfg : SheetConfig) (grid : List (List String)) :
    Except PyError (List Record) :=
  collectRows cfg (pySliceFrom grid (cfg.data_start_row - 1))

/-- `SheetProcessor.process(sheet_data)`: slice off the header rows, collect
rows up to the first fully-empty check range, sort descending by ID. -/
def process (cfg : SheetConfig) (grid : List (List String)) :
    Except PyError (List Record) :=
  match collectTop cfg grid with
  | .error e => .error e
  | .ok recs => .ok (sortDesc recs)

/-- The value `_process_row` returns on a row, defaulting to the empty
record on the (error) case that never occurs under a well-formed
configuration. -/
def procD (cfg : SheetConfig) (row : List String) : Record :=
  match processRow cfg row with
  | .ok r => r
  | .error _ => []


/-!  Well-formedness of a configuration, matching the spec's notion of a
valid setup: every configured column label is a nonempty run of Latin
letters, and no output key is used both as a scalar and as an array target.
The repository's real configuration satisfies both. -/

/-- An ASCII letter `A`–`Z` or `a`–`z`. -/
def isLatinLetter (c : Char) : Bool :=
  (65 ≤ c.toNat && c.toNat ≤ 90) || (97 ≤ c.toNat && c.toNat ≤ 122)

/-- A column label made only of letters `A`–`Z` (case-insensitive), nonempty. -/
def validLabel (s : String) : Bool :=
  !s.data.isEmpty && s.data.all isLatinLetter

/-- Configuration well-formedness: valid labels and a consistent
`is_array` flag per output key. -/
def wfConfig (cfg : SheetConfig) : Bool :=
  cfg.column_mapping.all (fun p => validLabel p.1) &&
  cfg.column_mapping.all (fun p =>
    cfg.column_mapping.all (fun q =>
      !(p.2.key == q.2.key) || (p.2.is_array == q.2.is_array)))

theorem memB_iff (x : String) : ∀ l : List String, memB x l = true ↔ x ∈ l := by
  intro l
  induction l with
  | nil => simp [memB]
  | cons y ys ih => simp [memB, ih]

theorem recGet_recSet (k : String) (v : PyVal) (k2 : String) :
    ∀ r : Record, recGet (recSet r k v) k2 = if k = k2 then some v else recGet r k2 := by
  intro r
  induction r with
  | nil =>
    by_cases h : k = k2 <;> simp [recSet, recGet, h]
  | cons p r ih =>
    obtain ⟨k0, w⟩ := p
    by_cases h0 : k0 = k
    · subst h0
      by_cases h : k0 = k2 <;> simp [recSet, recGet, h]
    · by_cases h2 : k0 = k2
      · subst h2
        have hk : ¬ k = k0 := fun hh => h0 hh.symm
        simp [recSet, recGet, h0, hk]
      · simp [recSet, recGet, h0, h2, ih]

theorem dedupGo_mem (x : String) :
    ∀ (l seen : List String), x ∈ dedupGo seen l ↔ (x ∈ l ∧ x ∉ seen) := by
  intro l
  induction l with
  | nil => simp [dedupGo]
  | cons a xs ih =>
    intro seen
    by_cases ha : memB a seen
    · have ha2 : a ∈ seen := (memB_iff a seen).mp ha
      simp only [dedupGo, ha, if_pos]
      rw [ih seen]
      constructor
      · rintro ⟨h1, h2⟩
        exact ⟨List.mem_cons_of_mem _ h1, h2⟩
      · rintro ⟨h1, h2⟩
        rcases List.mem_cons.mp h1 with h1 | h1
        · exact absurd (h1 ▸ ha2) h2
        · exact ⟨h1, h2⟩
    · have ha2 : a ∉ seen := fun hh => ha ((memB_iff a seen).mpr hh)
      simp only [dedupGo, ha, if_neg, Bool.false_eq_true, not_false_iff]
      rw [List.mem_cons, ih (a :: seen)]
      constructor
      · rintro (h | ⟨h1, h2⟩)
        · exact ⟨h ▸ List.mem_cons_self a xs, h ▸ ha2⟩
        · exact ⟨List.mem_cons_of_mem _ h1, fun hs => h2 (List.mem_cons_of_mem _ hs)⟩
      · rintro ⟨h1, h2⟩
        rcases List.mem_cons.mp h1 with h1 | h1
        · exact Or.inl h1
        · by_cases hxa : x = a
          · exact Or.inl hxa
          · exact Or.inr ⟨h1, fun hs => by
              rcases List.mem_cons.mp hs with hs | hs
              · exact hxa hs
              · exact h2 hs⟩

theorem dedupGo_nodup :
    ∀ (l seen : List String), (dedupGo seen l).Nodup := by
  intro l
  induction l with
  | nil => intro seen; simp [dedupGo]
  | cons a xs ih =>
    intro seen
    by_cases ha : memB a seen
    · simp only [dedupGo, ha, if_pos]; exact ih seen
    · simp only [dedupGo, ha, if_neg, Bool.false_eq_true, not_false_iff]
      refine List.nodup_cons.mpr ⟨?_, ih (a :: seen)⟩
      intro hmem
      exact ((dedupGo_mem a xs (a :: seen)).mp hmem).2 (List.mem_cons_self a seen)

theorem dedupFirst_mem (x : String) (l : List String) :
    x ∈ dedupFirst l ↔ x ∈ l := by
  unfold dedupFirst
  rw [dedupGo_mem]
  simp

theorem dedupFirst_nodup (l : List String) : (dedupFirst l).Nodup :=
  dedupGo_nodup l []

theorem dedupGo_congr :
    ∀ (l s1 s2 : List String), (∀ y, y ∈ s1 ↔ y ∈ s2) → dedupGo s1 l = dedupGo s2 l := by
  intro l
  induction l with
  | nil => intro s1 s2 _; rfl
  | cons x xs ih =>
    intro s1 s2 h
    have hb : memB x s1 = memB x s2 := by
      by_cases h1 : x ∈ s1
      · rw [(memB_iff x s1).mpr h1, (memB_iff x s2).mpr ((h x).mp h1)]
      · have h2 : x ∉ s2 := fun hh => h1 ((h x).mpr hh)
        have e1 : memB x s1 = false := by
          cases hc : memB x s1
          · rfl
          · exact absurd ((memB_iff x s1).mp hc) h1
        have e2 : memB x s2 = false := by
          cases hc : memB x s2
          · rfl
          · exact absurd ((memB_iff x s2).mp hc) h2
        rw [e1, e2]
    simp only [dedupGo, hb]
    by_cases hc : memB x s2
    · simp only [hc, if_pos]; exact ih s1 s2 h
    · simp only [hc, if_neg, Bool.false_eq_true, not_false_iff]
      refine congrArg (x :: ·) (ih (x :: s1) (x :: s2) ?_)
      intro y
      simp only [List.mem_cons]
      exact or_congr Iff.rfl (h y)

theorem dedupGo_consSeen (a : String) :
    ∀ (l seen : List String),
      dedupGo (a :: seen) l = dedupGo seen (l.filter (fun y => !(y == a))) := by
  intro l
  induction l with
  | nil => intro seen; rfl
  | cons x xs ih =>
    intro seen
    by_cases hxa : x = a
    · subst hxa
      have h1 : memB x (x :: seen) = true := by
        simp [memB]
      simp only [dedupGo, h1, if_pos, List.filter_cons]
      simp only [beq_self_eq_true, Bool.not_true, Bool.false_eq_true, if_neg,
        not_false_iff]
      exact ih seen
    · have hbeq : (x == a) = false := beq_eq_false_iff_ne.mpr hxa
      by_cases hs : memB x seen
      · have h1 : memB x (a :: seen) = true := by
          simp only [memB, hs, Bool.or_true]
        simp only [dedupGo, h1, if_pos, List.filter_cons, hbeq, Bool.not_false,
          if_pos, hs]
        exact ih seen
      · have h1 : memB x (a :: seen) = false := by
          have : (x == a) = false := hbeq
          simp only [memB, this, hs, Bool.or_false]
        simp only [dedupGo, h1, List.filter_cons, hbeq, Bool.not_false, if_pos,
          Bool.false_eq_true, if_neg, not_false_iff, hs]
        refine congrArg (x :: ·) ?_
        rw [← ih (x :: seen)]
        refine dedupGo_congr xs _ _ ?_
        intro y
        simp only [List.mem_cons]
        tauto

theorem dedupFirst_cons_filter (x : String) (l : List String) :
    dedupFirst (x :: l) = x :: dedupFirst (l.filter (fun y => !(y == x))) := by
  unfold dedupFirst
  have h0 : memB x ([] : List String) = false := rfl
  simp only [dedupGo, h0, Bool.false_eq_true, if_neg, not_false_iff]
  exact congrArg (x :: ·) (dedupGo_consSeen x l [])

/-- Spec-side digit value of an uppercase letter: `A = 1`, …, `Z = 26`. -/
def specDigit (c : Char) : Nat :=
  c.toNat - 64

/-- Spec-side base-26 value of a label, most-significant letter first,
1-based digit values, as §4.1 of the specification describes it. -/
def specBase26 (l : List Char) : Nat :=
  l.foldl (fun v c => v * 26 + specDigit c) 0

theorem upperOrd_letter_bounds (c : Char) (h : isLatinLetter c = true) :
    65 ≤ upperOrd c ∧ upperOrd c ≤ 90 := by
  simp only [isLatinLetter, Bool.or_eq_true, Bool.and_eq_true,
    decide_eq_true_eq] at h
  unfold upperOrd
  split_ifs with hc
  · simp only [Bool.and_eq_true, decide_eq_true_eq] at hc
    omega
  · simp only [Bool.and_eq_true, decide_eq_true_eq, not_and_or, not_le] at hc
    omega

theorem colFold_lower :
    ∀ (l : List Char) (acc : Int), (∀ c ∈ l, isLatinLetter c = true) → 0 ≤ acc →
      0 ≤ l.foldl colStep acc ∧ (l ≠ [] → 1 ≤ l.foldl colStep acc) := by
  intro l
  induction l with
  | nil => intro acc _ h0; exact ⟨h0, fun h => absurd rfl h⟩
  | cons c cs ih =>
    intro acc hall h0
    have hc := upperOrd_letter_bounds c (hall c (List.mem_cons_self c cs))
    have hstep : 1 ≤ colStep acc c := by
      unfold colStep
      have : (65 : Int) ≤ (upperOrd c : Int) := by exact_mod_cast hc.1
      nlinarith
    have hrec := ih (colStep acc c)
      (fun d hd => hall d (List.mem_cons_of_mem c hd)) (le_trans zero_le_one hstep)
    refine ⟨hrec.1, fun _ => ?_⟩
    rcases List.eq_nil_or_concat cs with h | h
    · subst h
      simpa using hstep
    · have hne : cs ≠ [] := by
        rcases h with ⟨l2, a, rfl⟩
        simp
      exact hrec.2 hne

theorem colToIndex_nonneg (s : String) (h : validLabel s = true) :
    0 ≤ colToIndex s := by
  unfold validLabel at h
  rw [Bool.and_eq_true] at h
  obtain ⟨h1, h2⟩ := h
  have hne : s.data ≠ [] := by
    cases hd : s.data with
    | nil => rw [hd] at h1; simp at h1
    | cons a t => simp
  have hall : ∀ c ∈ s.data, isLatinLetter c = true := by
    intro c hc
    exact List.all_eq_true.mp h2 c hc
  have hfold := (colFold_lower s.data 0 hall le_rfl).2 hne
  unfold colToIndex
  omega

theorem colFold_upper_eq_spec :
    ∀ (l : List Char) (acc : Nat), (∀ c ∈ l, 65 ≤ c.toNat ∧ c.toNat ≤ 90) →
      l.foldl colStep (acc : Int) =
        ((l.foldl (fun v c => v * 26 + specDigit c) acc : Nat) : Int) := by
  intro l
  induction l with
  | nil => intro acc _; rfl
  | cons c cs ih =>
    intro acc hall
    have hc := hall c (List.mem_cons_self c cs)
    have hupper : upperOrd c = c.toNat := by
      unfold upperOrd
      split_ifs with hcc

      · simp only [Bool.and_eq_true, decide_eq_true_eq] at hcc
        omega
      · rfl
    have hstep : colStep (acc : Int) c = ((acc * 26 + specDigit c : Nat) : Int) := by
      unfold colStep specDigit
      rw [hupper]
      push_cast [Nat.cast_sub (by omega : 64 ≤ c.toNat)]
      ring
    simp only [List.foldl_cons, hstep]
    exact ih (acc * 26 + specDigit c) (fun d hd => hall d (List.mem_cons_of_mem c hd))

theorem colFold_congr :
    ∀ (l1 l2 : List Char), List.Forall₂ (fun c d => upperOrd c = upperOrd d) l1 l2 →
      ∀ acc : Int, l1.foldl colStep acc = l2.foldl colStep acc := by
  intro l1 l2 h
  induction h with
  | nil => intro acc; rfl
  | cons hcd _ ih =>
    intro acc
    simp only [List.foldl_cons]
    unfold colStep
    rw [hcd]
    exact ih _


theorem getCellValue_nonneg (row : List String) (i : Int) (h : 0 ≤ i) :
    ∃ v, getCellValue row i = .ok v := by
  unfold getCellValue
  split_ifs with hlt
  · have hidx : i.toNat < row.length := by omega
    unfold pyListGet
    rw [if_pos h, List.getElem?_eq_getElem hidx]
    exact ⟨_, rfl⟩
  · exact ⟨"", rfl⟩

theorem getCellValue_oob (row : List String) (i : Int)
    (h : (row.length : Int) ≤ i) : getCellValue row i = .ok "" := by
  unfold getCellValue
  rw [if_neg (by omega)]

theorem getElem_pred_eq_getLast :
    ∀ l : List String, l ≠ [] → l[l.length - 1]? = l.getLast? := by
  intro l
  induction l with
  | nil => intro h; exact absurd rfl h
  | cons x t ih =>
    intro _
    cases t with
    | nil => rfl
    | cons y t2 =>
      have h2 : (y :: t2 : List String) ≠ [] := by simp
      have := ih h2
      simp only [List.length_cons, Nat.add_sub_cancel] at this ⊢
      rw [List.getLast?_cons_cons]
      rw [← this]
      have hl : y :: t2 ≠ ([] : List String) := by simp
      have : (x :: y :: t2 : List String)[(y :: t2).length]? = (y :: t2)[(y :: t2).length - 1]? := by
        have : (y :: t2 : List String).length = t2.length + 1 := rfl
        rw [this]
        simp [List.getElem?_cons_succ]
      simp at this
      simp [this]

theorem if_empty_strip (c : String) :
    (if c == "" then "" else pyStrip c) = pyStrip c := by
  by_cases h : c = ""
  · subst h; rfl
  · rw [if_neg (by simpa using h)]

theorem getCellValue_neg_one (row : List String) (h : row ≠ []) :
    getCellValue row (-1) = .ok (pyStrip (row.getLast?.getD "")) := by
  have hlen : 1 ≤ row.length := by
    cases row with
    | nil => exact absurd rfl h
    | cons a t => simp
  unfold getCellValue
  rw [if_pos (by omega : (-1 : Int) < (row.length : Int))]
  unfold pyListGet
  rw [if_neg (by omega : ¬ (0 : Int) ≤ -1),
    if_pos (by omega : (0 : Int) ≤ (row.length : Int) + -1)]
  have htn : (((row.length : Int) + -1).toNat) = row.length - 1 := by omega
  rw [htn, getElem_pred_eq_getLast row h]
  obtain ⟨x, hx⟩ : ∃ x, row.getLast? = some x := by
    cases row with
    | nil => exact absurd rfl h
    | cons a t => exact ⟨_, List.getLast?_cons⟩
  rw [hx]
  simp only [Option.getD_some]
  rw [if_empty_strip]

/-- Every key flagged `is_array` in the column mapping is in
`self._array_keys`. -/
theorem mem_arrayKeysOf_of_isArray (cfg : SheetConfig) (p : String × ColMap)
    (hp : p ∈ cfg.column_mapping) (ha : p.2.is_array = true) :
    p.2.key ∈ arrayKeysOf cfg := by
  unfold arrayKeysOf
  rw [dedupFirst_mem]
  exact List.mem_filterMap.mpr ⟨p, hp, by rw [ha]; rfl⟩

/-- Membership in `self._array_keys` comes from some array column. -/
theorem arrayKeysOf_mem_src (cfg : SheetConfig) (k : String)
    (h : k ∈ arrayKeysOf cfg) :
    ∃ p ∈ cfg.column_mapping, p.2.is_array = true ∧ p.2.key = k := by
  unfold arrayKeysOf at h
  rw [dedupFirst_mem] at h
  obtain ⟨p, hp, he⟩ := List.mem_filterMap.mp h
  by_cases ha : p.2.is_array
  · rw [if_pos ha] at he
    exact ⟨p, hp, ha, Option.some_injective _ he⟩
  · rw [if_neg ha] at he
    exact absurd he (by simp)

/-- The array keys are a subset of the ordered keys. -/
theorem arrayKeysOf_subset_ordered (cfg : SheetConfig) (k : String)
    (h : k ∈ arrayKeysOf cfg) : k ∈ orderedKeysOf cfg := by
  obtain ⟨p, hp, _, hk⟩ := arrayKeysOf_mem_src cfg k h
  unfold orderedKeysOf
  rw [dedupFirst_mem]
  exact List.mem_map.mpr ⟨p, hp, hk⟩

/-- Lookup in the all-at-once initialised dict. -/
theorem recGet_keyed_map (f : String → PyVal) (k : String) :
    ∀ ks : List String,
      recGet (ks.map (fun k2 => (k2, f k2))) k =
        if k ∈ ks then some (f k) else none := by
  intro ks
  induction ks with
  | nil => simp [recGet]
  | cons a t ih =>
    by_cases h : a = k
    · subst h
      simp [recGet, ih]
    · have hka : ¬ k = a := fun he => h he.symm
      by_cases h2 : k ∈ t
      · simp [recGet, h, ih, h2, List.mem_cons, hka]
      · simp [recGet, h, ih, h2, List.mem_cons, hka]

/-- In the freshly initialised record, array keys hold the empty list. -/
theorem initRecord_arr (cfg : SheetConfig) (k : String)
    (h : k ∈ arrayKeysOf cfg) :
    recGet (initRecord cfg) k = some (PyVal.arr []) := by
  unfold initRecord
  rw [recGet_keyed_map]
  rw [if_pos (arrayKeysOf_subset_ordered cfg k h)]
  rw [if_pos ((memB_iff k (arrayKeysOf cfg)).mpr h)]

/-- In the freshly initialised record, lists appear only at array keys. -/
theorem initRecord_arrOnly (cfg : SheetConfig) (k : String) (xs : List String)
    (h : recGet (initRecord cfg) k = some (PyVal.arr xs)) :
    k ∈ arrayKeysOf cfg := by
  unfold initRecord at h
  rw [recGet_keyed_map] at h
  by_cases hk : k ∈ orderedKeysOf cfg
  · rw [if_pos hk] at h
    by_cases ha : memB k (arrayKeysOf cfg)
    · exact (memB_iff k (arrayKeysOf cfg)).mp ha
    · rw [if_neg ha] at h
      exact absurd (Option.some_injective _ h) (by simp)
  · rw [if_neg hk] at h
    exact absurd h (by simp)

/-- The property that every list-valued entry of a record sits at one of
`self._array_keys`: `_process_row` establishes it at initialisation and every
branch preserves it. -/
def ArrOnly (cfg : SheetConfig) (r : Record) : Prop :=
  ∀ k xs, recGet r k = some (PyVal.arr xs) → k ∈ arrayKeysOf cfg

/-- The property that every array key holds a list (so `extend` succeeds). -/
def ArrAll (cfg : SheetConfig) (r : Record) : Prop :=
  ∀ k, k ∈ arrayKeysOf cfg → ∃ xs, recGet r k = some (PyVal.arr xs)

theorem processCols_arrOnly (cfg : SheetConfig) (row : List String) :
    ∀ (cols : List (String × ColMap)) (rec r2 : Record),
      (∀ p ∈ cols, p ∈ cfg.column_mapping) →
      ArrOnly cfg rec →
      processCols cfg row cols rec = .ok r2 → ArrOnly cfg r2 := by
  intro cols
  induction cols with
  | nil =>
    intro rec r2 _ hrec hok
    unfold processCols at hok
    cases hok
    exact hrec
  | cons p rest ih =>
    intro rec r2 hsub hrec hok
    obtain ⟨col, m⟩ := p
    unfold processCols at hok
    split at hok
    · cases hok
    · rename_i value hgv
      split at hok
      · exact ih rec r2 (fun q hq => hsub q (List.mem_cons_of_mem _ hq)) hrec hok
      · split at hok
        · rename_i harr
          split at hok
          · cases hok
          · rename_i rec2 hex
            refine ih rec2 r2 (fun q hq => hsub q (List.mem_cons_of_mem _ hq)) ?_ hok
            unfold recExtend at hex
            split at hex
            · cases hex
            · cases hex
            · rename_i xs hget
              rw [Except.ok.injEq] at hex
              subst hex
              intro k ys hy
              rw [recGet_recSet] at hy
              by_cases hk : m.key = k
              · rw [← hk]
                exact mem_arrayKeysOf_of_isArray cfg (col, m)
                  (hsub (col, m) (List.mem_cons_self _ _)) harr
              · rw [if_neg hk] at hy
                exact hrec k ys hy
        · refine ih _ r2 (fun q hq => hsub q (List.mem_cons_of_mem _ hq)) ?_ hok
          intro k ys hy
          rw [recGet_recSet] at hy
          by_cases hk : m.key = k
          · rw [if_pos hk] at hy
            exact absurd (Option.some_injective _ hy) (by simp)
          · rw [if_neg hk] at hy
            exact hrec k ys hy

theorem wfConfig_validLabel (cfg : SheetConfig) (h : wfConfig cfg = true)
    (p : String × ColMap) (hp : p ∈ cfg.column_mapping) : validLabel p.1 = true := by
  unfold wfConfig at h
  rw [Bool.and_eq_true] at h
  exact List.all_eq_true.mp h.1 p hp

theorem wfConfig_scalar_not_arrayKey (cfg : SheetConfig) (h : wfConfig cfg = true)
    (p : String × ColMap) (hp : p ∈ cfg.column_mapping)
    (hs : p.2.is_array = false) : p.2.key ∉ arrayKeysOf cfg := by
  intro hmem
  obtain ⟨q, hq, hqa, hqk⟩ := arrayKeysOf_mem_src cfg p.2.key hmem
  unfold wfConfig at h
  rw [Bool.and_eq_true] at h
  have h2 := List.all_eq_true.mp (List.all_eq_true.mp h.2 p hp) q hq
  rw [Bool.or_eq_true] at h2
  rcases h2 with h2 | h2
  · rw [Bool.not_eq_eq_eq_not, Bool.not_true, beq_eq_false_iff_ne] at h2
    exact h2 hqk.symm
  · rw [beq_iff_eq, hs, hqa] at h2
    exact Bool.false_ne_true h2

theorem processCols_total (cfg : SheetConfig) (row : List String) :
    ∀ (cols : List (String × ColMap)) (rec : Record),
      (∀ p ∈ cols, validLabel p.1 = true) →
      (∀ p ∈ cols, p.2.is_array = false → p.2.key ∉ arrayKeysOf cfg) →
      (∀ p ∈ cols, p.2.is_array = true → p.2.key ∈ arrayKeysOf cfg) →
      ArrAll cfg rec →
      ∃ r2, processCols cfg row cols rec = .ok r2 := by
  intro cols
  induction cols with
  | nil =>
    intro rec _ _ _ _
    exact ⟨rec, rfl⟩
  | cons p rest ih =>
    intro rec hlab hsc har hall
    obtain ⟨col, m⟩ := p
    have hv : 0 ≤ colToIndex col :=
      colToIndex_nonneg col (hlab (col, m) (List.mem_cons_self _ _))
    obtain ⟨value, hval⟩ := getCellValue_nonneg row (colToIndex col) hv
    unfold processCols
    rw [hval]
    dsimp only
    by_cases hskip : (value == "" || memB value cfg.ignore_values) = true
    · rw [if_pos hskip]
      exact ih rec (fun q hq => hlab q (List.mem_cons_of_mem _ hq))
        (fun q hq => hsc q (List.mem_cons_of_mem _ hq))
        (fun q hq => har q (List.mem_cons_of_mem _ hq)) hall
    · rw [if_neg hskip]
      by_cases harr : m.is_array
      · rw [if_pos harr]
        have hkmem : m.key ∈ arrayKeysOf cfg :=
          har (col, m) (List.mem_cons_self _ _) harr
        obtain ⟨xs, hxs⟩ := hall m.key hkmem
        unfold recExtend
        rw [hxs]
        refine ih _ (fun q hq => hlab q (List.mem_cons_of_mem _ hq))
          (fun q hq => hsc q (List.mem_cons_of_mem _ hq))
          (fun q hq => har q (List.mem_cons_of_mem _ hq)) ?_
        intro k hk
        rw [recGet_recSet]
        by_cases he : m.key = k
        · exact ⟨_, by rw [if_pos he]⟩
        · rw [if_neg he]
          exact hall k hk
      · rw [if_neg harr]
        refine ih _ (fun q hq => hlab q (List.mem_cons_of_mem _ hq))
          (fun q hq => hsc q (List.mem_cons_of_mem _ hq))
          (fun q hq => har q (List.mem_cons_of_mem _ hq)) ?_
        intro k hk
        rw [recGet_recSet]
        by_cases he : m.key = k
        · have hfalse : m.is_array = false := by
            cases hma : m.is_array
            · rfl
            · exact absurd hma harr
          exact absurd (he ▸ hk)
            (hsc (col, m) (List.mem_cons_self _ _) hfalse)
        · rw [if_neg he]
          exact hall k hk

theorem processRow_total (cfg : SheetConfig) (hwf : wfConfig cfg = true)
    (row : List String) : ∃ rec, processRow cfg row = .ok rec := by
  have hstart : ArrAll cfg (initRecord cfg) := by
    intro k hk
    exact ⟨[], initRecord_arr cfg k hk⟩
  obtain ⟨r2, hr2⟩ := processCols_total cfg row cfg.column_mapping (initRecord cfg)
    (fun p hp => wfConfig_validLabel cfg hwf p hp)
    (fun p hp hs => wfConfig_scalar_not_arrayKey cfg hwf p hp hs)
    (fun p hp ha => mem_arrayKeysOf_of_isArray cfg p hp ha)
    hstart
  refine ⟨dedupPass (arrayKeysOf cfg) r2, ?_⟩
  unfold processRow
  rw [hr2]

theorem dedupPass_nodup :
    ∀ (ks : List String) (r : Record),
      (∀ k xs, recGet r k = some (PyVal.arr xs) → k ∈ ks ∨ xs.Nodup) →
      ∀ k xs, recGet (dedupPass ks r) k = some (PyVal.arr xs) → xs.Nodup := by
  intro ks
  induction ks with
  | nil =>
    intro r h k xs hget
    rcases h k xs hget with h2 | h2
    · exact absurd h2 (List.not_mem_nil k)
    · exact h2
  | cons k0 ks2 ih =>
    intro r h k xs hget
    have hstep : dedupPass (k0 :: ks2) r = dedupPass ks2 (dedupStep r k0) := rfl
    rw [hstep] at hget
    refine ih (dedupStep r k0) ?_ k xs hget
    intro k2 ys hy
    by_cases hk2 : k2 = k0
    · subst hk2
      unfold dedupStep at hy
      split at hy
      · rename_i zs hz
        split at hy
        · rename_i hemp
          rw [hz] at hy
          have hzy : zs = ys := by
            have h2 := Option.some_injective _ hy
            injection h2
          rw [List.isEmpty_iff] at hemp
          refine Or.inr ?_
          rw [← hzy, hemp]
          exact List.nodup_nil
        · rw [recGet_recSet, if_pos rfl] at hy
          have h2 := Option.some_injective _ hy
          have hys : dedupFirst zs = ys := by injection h2
          exact Or.inr (hys ▸ dedupFirst_nodup zs)
      · rename_i s hz
        split at hy
        · rw [hz] at hy
          exact absurd hy (by simp)
        · rw [recGet_recSet, if_pos rfl] at hy
          have h2 := Option.some_injective _ hy
          have hys : dedupFirst (s.data.map Char.toString) = ys := by injection h2
          exact Or.inr (hys ▸ dedupFirst_nodup _)
      · rename_i hz
        rw [hz] at hy
        exact absurd hy (by simp)
    · have hy2 : recGet r k2 = some (PyVal.arr ys) := by
        unfold dedupStep at hy
        split at hy
        · split at hy
          · exact hy
          · rw [recGet_recSet, if_neg (fun he => hk2 he.symm)] at hy
            exact hy
        · split at hy
          · exact hy
          · rw [recGet_recSet, if_neg (fun he => hk2 he.symm)] at hy
            exact hy
        · exact hy
      rcases h k2 ys hy2 with hmem | hnd
      · rcases List.mem_cons.mp hmem with he | hmem2
        · exact absurd he hk2
        · exact Or.inl hmem2
      · exact Or.inr hnd

/-- Any record `_process_row` returns has duplicate-free array fields:
lists occur only at array keys and the final loop deduplicates those. -/
theorem processRow_arrNodup (cfg : SheetConfig) (row : List String)
    (rec : Record) (h : processRow cfg row = .ok rec) :
    ∀ k xs, recGet rec k = some (PyVal.arr xs) → xs.Nodup := by
  unfold processRow at h
  split at h
  · cases h
  · rename_i r hr
    rw [Except.ok.injEq] at h
    subst h
    have honly : ArrOnly cfg r :=
      processCols_arrOnly cfg row cfg.column_mapping (initRecord cfg) r
        (fun p hp => hp) (fun k xs hx => initRecord_arrOnly cfg k xs hx) hr
    exact dedupPass_nodup (arrayKeysOf cfg) r
      (fun k xs hx => Or.inl (honly k xs hx))

/-- Under a well-formed configuration the row loop of `process` is the
map of `_process_row` over the rows before the first terminal row. -/
theorem collectRows_eq_takeWhile (cfg : SheetConfig) (hwf : wfConfig cfg = true) :
    ∀ rows : List (List String),
      collectRows cfg rows =
        .ok ((rows.takeWhile (fun row => !(isEndRow cfg row))).map (procD cfg)) := by
  intro rows
  induction rows with
  | nil => rfl
  | cons row rest ih =>
    by_cases hend : isEndRow cfg row
    · unfold collectRows
      rw [if_pos hend]
      rw [List.takeWhile_cons, hend]
      rfl
    · have hendF : isEndRow cfg row = false := by
        cases he : isEndRow cfg row
        · rfl
        · exact absurd he hend
      obtain ⟨rec, hrec⟩ := processRow_total cfg hwf row
      unfold collectRows
      rw [if_neg hend, hrec, ih]
      rw [List.takeWhile_cons, hendF]
      have hpd : procD cfg row = rec := by
        unfold procD
        rw [hrec]
      simp [hpd]

/-- Every record the row loop collects is an output of `_process_row`. -/
theorem collectRows_mem (cfg : SheetConfig) :
    ∀ (rows : List (List String)) (pre : List Record),
      collectRows cfg rows = .ok pre →
      ∀ rec ∈ pre, ∃ row, processRow cfg row = .ok rec := by
  intro rows
  induction rows with
  | nil =>
    intro pre h rec hrec
    unfold collectRows at h
    rw [Except.ok.injEq] at h
    subst h
    exact absurd hrec (List.not_mem_nil rec)
  | cons row rest ih =>
    intro pre h rec hrec
    unfold collectRows at h
    split at h
    · rw [Except.ok.injEq] at h
      subst h
      exact absurd hrec (List.not_mem_nil rec)
    · split at h
      · cases h
      · rename_i r hr
        split at h
        · cases h
        · rename_i rs hrs
          rw [Except.ok.injEq] at h
          subst h
          rcases List.mem_cons.mp hrec with he | hmem
          · exact ⟨row, he ▸ hr⟩
          · exact ih rs hrs rec hmem

/-!  The stable descending sort. -/

theorem insertDesc_perm (x : Record) :
    ∀ l : List Record, (insertDesc x l).Perm (x :: l) := by
  intro l
  induction l with
  | nil => exact List.Perm.refl _
  | cons y ys ih =>
    unfold insertDesc
    split_ifs with hc
    · exact (List.Perm.cons y ih).trans (List.Perm.swap x y ys)
    · exact List.Perm.refl _

theorem sortDesc_perm : ∀ l : List Record, (sortDesc l).Perm l := by
  intro l
  induction l with
  | nil => exact List.Perm.refl _
  | cons x xs ih =>
    unfold sortDesc
    exact (insertDesc_perm x (sortDesc xs)).trans (List.Perm.cons x ih)

theorem insertDesc_sorted (x : Record) :
    ∀ l : List Record, l.Pairwise (fun a b => sortKey b ≤ sortKey a) →
      (insertDesc x l).Pairwise (fun a b => sortKey b ≤ sortKey a) := by
  intro l
  induction l with
  | nil => intro _; exact List.pairwise_singleton _ x
  | cons y ys ih =>
    intro h
    rw [List.pairwise_cons] at h
    unfold insertDesc
    split_ifs with hc
    · rw [List.pairwise_cons]
      refine ⟨?_, ih h.2⟩
      intro z hz
      have hz2 := (insertDesc_perm x ys).mem_iff.mp hz
      rcases List.mem_cons.mp hz2 with he | hmem
      · exact he ▸ le_of_lt hc
      · exact h.1 z hmem
    · rw [List.pairwise_cons]
      refine ⟨?_, List.pairwise_cons.mpr h⟩
      intro z hz
      rcases List.mem_cons.mp hz with he | hmem
      · exact he ▸ le_of_not_lt hc
      · exact le_trans (h.1 z hmem) (le_of_not_lt hc)

theorem sortDesc_sorted :
    ∀ l : List Record, (sortDesc l).Pairwise (fun a b => sortKey b ≤ sortKey a) := by
  intro l
  induction l with
  | nil => exact List.Pairwise.nil
  | cons x xs ih =>
    unfold sortDesc
    exact insertDesc_sorted x (sortDesc xs) ih

theorem insertDesc_filter_eq (x : Record) (v : Int) (hx : sortKey x = v) :
    ∀ l : List Record,
      (insertDesc x l).filter (fun r => sortKey r == v) =
        x :: l.filter (fun r => sortKey r == v) := by
  intro l
  induction l with
  | nil => simp [insertDesc, hx, List.filter]
  | cons y ys ih =>
    unfold insertDesc
    split_ifs with hc
    · have hy : (sortKey y == v) = false := by
        rw [beq_eq_false_iff_ne]
        omega
      rw [List.filter_cons, hy]
      simp only [Bool.false_eq_true, if_neg, not_false_iff]
      rw [ih, List.filter_cons, hy]
      simp
    · rw [List.filter_cons]
      have hx2 : (sortKey x == v) = true := beq_iff_eq.mpr hx
      rw [hx2]
      simp

theorem insertDesc_filter_ne (x : Record) (v : Int) (hx : ¬ sortKey x = v) :
    ∀ l : List Record,
      (insertDesc x l).filter (fun r => sortKey r == v) =
        l.filter (fun r => sortKey r == v) := by
  intro l
  have hxb : (sortKey x == v) = false := beq_eq_false_iff_ne.mpr hx
  induction l with
  | nil => simp [insertDesc, List.filter, hxb]
  | cons y ys ih =>
    unfold insertDesc
    split_ifs with hc
    · rw [List.filter_cons, List.filter_cons]
      cases hyb : (sortKey y == v) <;> simp [ih]
    · rw [List.filter_cons, hxb]
      simp

theorem sortDesc_stable (v : Int) :
    ∀ l : List Record,
      (sortDesc l).filter (fun r => sortKey r == v) =
        l.filter (fun r => sortKey r == v) := by
  intro l
  induction l with
  | nil => rfl
  | cons x xs ih =>
    unfold sortDesc
    by_cases hx : sortKey x = v
    · rw [insertDesc_filter_eq x v hx (sortDesc xs), ih, List.filter_cons,
        beq_iff_eq.mpr hx]
      simp
    · rw [insertDesc_filter_ne x v hx (sortDesc xs), ih, List.filter_cons,
        beq_eq_false_iff_ne.mpr hx]
      simp

/-!  The specification-side reading of the singer pattern (§4.3): a part
matches when it decomposes as `g1 ++ "[" ++ g2 ++ "]"` with the closing
bracket last and both groups nonempty, and the groups are taken at the
leftmost admissible `[`.  Unlike the source regex it says nothing about
newlines (`.` in a Python regex does not match a newline), so the
equivalence below is stated for newline-free inputs. -/

/-- Index of the first `[` in a list, if any. -/
def idxOfOpen : List Char → Option Nat
  | [] => none
  | c :: cs => if c == '[' then some 0 else (idxOfOpen cs).map (fun j => j + 1)

/-- The claim's matcher: `p` is `g1 ++ "[" ++ g2 ++ "]"`, final character
`]`, `g1` and `g2` nonempty, with `g1` running up to the first `[` that
leaves at least one character before it and one inside the brackets. -/
def specMatch (p : List Char) : Option (List Char × List Char) :=
  match idxOfOpen (p.drop 1) with
  | none => none
  | some j =>
    if p.getLast? == some ']' && decide (j + 4 ≤ p.length) then
      some (p.take (j + 1), (p.drop (j + 2)).dropLast)
    else none

/-- The spec-side per-part tokens, mirroring §4.3 with `specMatch`. -/
def specPartTokens (part : List Char) : List String :=
  let sp := stripChars part
  if sp.isEmpty then []
  else
    match specMatch sp with
    | some (u, b) =>
      String.mk (stripChars u) ::
        (((splitOnChar ',' b).map stripChars).filter (fun m => !m.isEmpty)).map
          (fun m => String.mk m)
    | none => [String.mk sp]

/-- The spec-side grouped-field parser of §4.3: bracket-aware top-level
split, then per-part expansion. -/
def specGroupedTokens (value : String) : List String :=
  ((singerSplitAux false [] value.data).map specPartTokens).flatten

theorem mem_of_mem_dropWhileChars (p : Char → Bool) (x : Char) :
    ∀ l : List Char, x ∈ l.dropWhile p → x ∈ l := by
  intro l
  induction l with
  | nil => intro h; exact absurd h (List.not_mem_nil x)
  | cons c cs ih =>
    intro h
    rw [List.dropWhile_cons] at h
    split at h
    · exact List.mem_cons_of_mem c (ih h)
    · exact h

theorem mem_of_mem_stripChars (x : Char) (l : List Char)
    (h : x ∈ stripChars l) : x ∈ l := by
  unfold stripChars at h
  rw [List.mem_reverse] at h
  have h2 := mem_of_mem_dropWhileChars pyIsSpace x _ h
  rw [List.mem_reverse] at h2
  exact mem_of_mem_dropWhileChars pyIsSpace x l h2

theorem containsChar_iff (c : Char) :
    ∀ l : List Char, l.contains c = true ↔ c ∈ l := by
  intro l
  induction l with
  | nil => simp
  | cons a t ih => simp [ih]

theorem getLast_cons_ne (c : Char) (cs : List Char) (h : cs ≠ []) :
    (c :: cs).getLast? = cs.getLast? := by
  cases cs with
  | nil => exact absurd rfl h
  | cons d t => exact List.getLast?_cons_cons

/-- The shape of the backtracking result once group 1 is nonempty, for
newline-free input: the first `[`, with the whole string ending in `]` and
room for a nonempty body. -/
def smSpecRes (g1 : List Char) (l : List Char) : Option (List Char × List Char) :=
  match idxOfOpen l with
  | none => none
  | some j =>
    if l.getLast? == some ']' && decide (j + 3 ≤ l.length) then
      some (g1 ++ l.take j, (l.drop (j + 1)).dropLast)
    else none

theorem smSpecRes_none (g1 l : List Char) (hio : idxOfOpen l = none) :
    smSpecRes g1 l = none := by
  unfold smSpecRes
  rw [hio]

theorem smSpecRes_some (g1 l : List Char) (j : Nat) (hio : idxOfOpen l = some j) :
    smSpecRes g1 l =
      if l.getLast? == some ']' && decide (j + 3 ≤ l.length) then
        some (g1 ++ l.take j, (l.drop (j + 1)).dropLast)
      else none := by
  unfold smSpecRes
  rw [hio]

theorem specMatch_cons_none (c : Char) (tail : List Char)
    (hio : idxOfOpen tail = none) : specMatch (c :: tail) = none := by
  unfold specMatch
  rw [List.drop_one, List.tail_cons, hio]

theorem specMatch_cons_some (c : Char) (tail : List Char) (j : Nat)
    (hio : idxOfOpen tail = some j) :
    specMatch (c :: tail) =
      if (c :: tail).getLast? == some ']' && decide (j + 4 ≤ (c :: tail).length) then
        some ((c :: tail).take (j + 1), ((c :: tail).drop (j + 2)).dropLast)
      else none := by
  unfold specMatch
  rw [List.drop_one, List.tail_cons, hio]

theorem smAux_cons_open_some (acc cs b : List Char) (hacc : acc.isEmpty = false)
    (hbc : bodyCheckB cs = some b) :
    smAux acc ('[' :: cs) = some (acc.reverse, b) := by
  conv_lhs => unfold smAux
  rw [if_neg (by decide), if_pos (by simp [hacc]), hbc]

theorem smAux_cons_open_none (acc cs : List Char) (hacc : acc.isEmpty = false)
    (hbc : bodyCheckB cs = none) :
    smAux acc ('[' :: cs) = smAux ('[' :: acc) cs := by
  conv_lhs => unfold smAux
  rw [if_neg (by decide), if_pos (by simp [hacc]), hbc]

theorem smAux_cons_other (acc : List Char) (c : Char) (cs : List Char)
    (hne : ¬ c = '\n') (hno : (c == '[' && !acc.isEmpty) = false) :
    smAux acc (c :: cs) = smAux (c :: acc) cs := by
  conv_lhs => unfold smAux
  rw [if_neg (by simpa using hne), if_neg (by simp [hno])]

theorem idxOfOpen_lt_length :
    ∀ (l : List Char) (j : Nat), idxOfOpen l = some j → j < l.length := by
  intro l
  induction l with
  | nil => intro j h; simp [idxOfOpen] at h
  | cons d t ih =>
    intro j h
    unfold idxOfOpen at h
    split at h
    · rw [Option.some.injEq] at h
      subst h
      simp
    · rcases hio : idxOfOpen t with _ | j2
      · rw [hio] at h
        simp at h
      · rw [hio] at h
        simp at h
        have := ih j2 hio
        simp only [List.length_cons]
        omega

theorem bodyCheckB_eq (cs : List Char) (hnl : '\n' ∉ cs) :
    bodyCheckB cs =
      if cs.getLast? == some ']' && decide (2 ≤ cs.length) then some cs.dropLast
      else none := by
  have hnotDL : (cs.dropLast.contains '\n') = false := by
    cases hdc : cs.dropLast.contains '\n'
    · rfl
    · exact absurd
        ((List.dropLast_sublist cs).subset ((containsChar_iff '\n' cs.dropLast).mp hdc))
        hnl
  unfold bodyCheckB
  rw [hnotDL]
  by_cases h : (cs.getLast? == some ']' && decide (2 ≤ cs.length)) = true
  · rw [if_pos, if_pos h]
    simp only [Bool.and_eq_true] at h ⊢
    exact ⟨h, rfl⟩
  · rw [if_neg, if_neg h]
    intro hall
    simp only [Bool.and_eq_true] at hall h
    exact h ⟨hall.1.1, hall.1.2⟩

theorem smAux_eq_spec :
    ∀ (l acc : List Char), '\n' ∉ l → acc ≠ [] →
      smAux acc l = smSpecRes acc.reverse l := by
  intro l
  induction l with
  | nil => intro acc _ _; rfl
  | cons c cs ih =>
    intro acc hnl hacc
    have hcnl : ¬ c = '\n' := fun he => hnl (he ▸ List.mem_cons_self c cs)
    have hcsnl : '\n' ∉ cs := fun hm => hnl (List.mem_cons_of_mem c hm)
    have haccE : acc.isEmpty = false := by
      cases acc with
      | nil => exact absurd rfl hacc
      | cons a t => rfl
    by_cases hc : c = '['
    · subst hc
      have hidx : idxOfOpen ('[' :: cs) = some 0 := by simp [idxOfOpen]
      rw [smSpecRes_some acc.reverse ('[' :: cs) 0 hidx]
      by_cases hcond : (cs.getLast? == some ']' && decide (2 ≤ cs.length)) = true
      · have hbc : bodyCheckB cs = some cs.dropLast := by
          rw [bodyCheckB_eq cs hcsnl, if_pos hcond]
        rw [smAux_cons_open_some acc cs cs.dropLast haccE hbc, if_pos]
        · simp
        · simp only [Bool.and_eq_true] at hcond ⊢
          have hcs_ne : cs ≠ [] := by
            intro he
            rw [he] at hcond
            simp at hcond
          rw [getLast_cons_ne '[' cs hcs_ne]
          refine ⟨hcond.1, ?_⟩
          simp only [decide_eq_true_eq, List.length_cons] at hcond ⊢
          omega
      · have hbc : bodyCheckB cs = none := by
          rw [bodyCheckB_eq cs hcsnl, if_neg hcond]
        rw [smAux_cons_open_none acc cs haccE hbc]
        rw [ih ('[' :: acc) hcsnl (by simp)]
        rcases hio : idxOfOpen cs with _ | j
        · rw [smSpecRes_none _ cs hio, if_neg]
          intro hall
          simp only [Bool.and_eq_true] at hall
          have hcs_ne : cs ≠ [] := by
            intro he
            rw [he] at hall
            simp at hall
          rw [getLast_cons_ne '[' cs hcs_ne] at hall
          refine hcond ?_
          simp only [Bool.and_eq_true, decide_eq_true_eq]
          simp only [decide_eq_true_eq, List.length_cons] at hall
          exact ⟨hall.1, by omega⟩
        · rw [smSpecRes_some _ cs j hio, if_neg, if_neg]
          · intro hall
            simp only [Bool.and_eq_true] at hall
            have hcs_ne : cs ≠ [] := by
              intro he
              rw [he] at hio
              simp [idxOfOpen] at hio
            rw [getLast_cons_ne '[' cs hcs_ne] at hall
            have hjl := idxOfOpen_lt_length cs j hio
            refine hcond ?_
            simp only [Bool.and_eq_true, decide_eq_true_eq]
            simp only [decide_eq_true_eq, List.length_cons] at hall
            exact ⟨hall.1, by omega⟩
          · intro hall
            simp only [Bool.and_eq_true] at hall
            have hcs_ne : cs ≠ [] := by
              intro he
              rw [he] at hio
              simp [idxOfOpen] at hio
            have hjl := idxOfOpen_lt_length cs j hio
            refine hcond ?_
            simp only [Bool.and_eq_true, decide_eq_true_eq]
            simp only [decide_eq_true_eq] at hall
            exact ⟨hall.1, by omega⟩
    · have hno : (c == '[' && !acc.isEmpty) = false := by
        have : (c == '[') = false := by simpa using hc
        rw [this]
        rfl
      rw [smAux_cons_other acc c cs hcnl hno]
      rw [ih (c :: acc) hcsnl (by simp)]
      have hidx : idxOfOpen (c :: cs) = (idxOfOpen cs).map (fun j => j + 1) := by
        conv_lhs => unfold idxOfOpen
        rw [if_neg (by simpa using hc)]
      rcases hio : idxOfOpen cs with _ | j
      · rw [smSpecRes_none _ cs hio, smSpecRes_none _ (c :: cs)
          (by rw [hidx, hio]; rfl)]
      · have hcs_ne : cs ≠ [] := by
          intro he
          rw [he] at hio
          simp [idxOfOpen] at hio
        rw [smSpecRes_some _ cs j hio, smSpecRes_some _ (c :: cs) (j + 1)
          (by rw [hidx, hio]; rfl)]
        have hglast : (c :: cs).getLast? = cs.getLast? := getLast_cons_ne c cs hcs_ne
        by_cases hcond : (cs.getLast? == some ']' && decide (j + 3 ≤ cs.length)) = true
        · rw [if_pos hcond, if_pos]
          · refine congrArg some (Prod.ext ?_ ?_)
            · show (c :: acc).reverse ++ cs.take j = acc.reverse ++ (c :: cs).take (j + 1)
              rw [List.reverse_cons, List.take_succ_cons]
              simp
            · rfl
          · rw [hglast]
            simp only [Bool.and_eq_true] at hcond ⊢
            refine ⟨hcond.1, ?_⟩
            simp only [decide_eq_true_eq, List.length_cons] at hcond ⊢
            omega
        · rw [if_neg hcond, if_neg]
          intro hall
          rw [hglast] at hall
          simp only [Bool.and_eq_true] at hall
          refine hcond ?_
          simp only [Bool.and_eq_true, decide_eq_true_eq]
          simp only [decide_eq_true_eq, List.length_cons] at hall
          exact ⟨hall.1, by omega⟩

theorem singerMatch_eq_specMatch (s : List Char) (h : '\n' ∉ s) :
    singerMatch s = specMatch s := by
  cases s with
  | nil => rfl
  | cons c cs =>
    have hcnl : ¬ c = '\n' := fun he => h (he ▸ List.mem_cons_self c cs)
    have hcsnl : '\n' ∉ cs := fun hm => h (List.mem_cons_of_mem c hm)
    have hstep : singerMatch (c :: cs) = smAux [c] cs := by
      unfold singerMatch
      conv_lhs => unfold smAux
      rw [if_neg (by simpa using hcnl), if_neg (by simp)]
    rw [hstep, smAux_eq_spec cs [c] hcsnl (by simp)]
    rcases hio : idxOfOpen cs with _ | j
    · rw [smSpecRes_none _ cs hio, specMatch_cons_none c cs hio]
    · have hcs_ne : cs ≠ [] := by
        intro he
        rw [he] at hio
        simp [idxOfOpen] at hio
      rw [smSpecRes_some _ cs j hio, specMatch_cons_some c cs j hio]
      have hglast : (c :: cs).getLast? = cs.getLast? := getLast_cons_ne c cs hcs_ne
      by_cases hcond : (cs.getLast? == some ']' && decide (j + 3 ≤ cs.length)) = true
      · rw [if_pos hcond, if_pos]
        · refine congrArg some (Prod.ext ?_ ?_)
          · show [c].reverse ++ cs.take j = (c :: cs).take (j + 1)
            rw [List.take_succ_cons]
            rfl
          · rfl
        · rw [hglast]
          simp only [Bool.and_eq_true] at hcond ⊢
          refine ⟨hcond.1, ?_⟩
          simp only [decide_eq_true_eq, List.length_cons] at hcond ⊢
          omega
      · rw [if_neg hcond, if_neg]
        intro hall
        rw [hglast] at hall
        simp only [Bool.and_eq_true] at hall
        refine hcond ?_
        simp only [Bool.and_eq_true, decide_eq_true_eq]
        simp only [decide_eq_true_eq, List.length_cons] at hall
        exact ⟨hall.1, by omega⟩

theorem map_congr_mem (f g : List Char → List String) :
    ∀ l : List (List Char), (∀ a ∈ l, f a = g a) → l.map f = l.map g := by
  intro l
  induction l with
  | nil => intro _; rfl
  | cons a t ih =>
    intro h
    simp only [List.map_cons]
    rw [h a (List.mem_cons_self a t), ih (fun b hb => h b (List.mem_cons_of_mem a hb))]

theorem singerSplitAux_chars :
    ∀ (l : List Char) (sk : Bool) (cur part : List Char),
      part ∈ singerSplitAux sk cur l → ∀ x ∈ part, x ∈ cur ∨ x ∈ l := by
  intro l
  induction l with
  | nil =>
    intro sk cur part hp x hx
    unfold singerSplitAux at hp
    rw [List.mem_singleton] at hp
    subst hp
    exact Or.inl (List.mem_reverse.mp hx)
  | cons c rest ih =>
    intro sk cur part hp x hx
    unfold singerSplitAux at hp
    split at hp
    · rcases ih true cur part hp x hx with h0 | h1
      · exact Or.inl h0
      · exact Or.inr (List.mem_cons_of_mem c h1)
    · split at hp
      · rcases List.mem_cons.mp hp with he | hm
        · subst he
          exact Or.inl (List.mem_reverse.mp hx)
        · rcases ih true [] part hm x hx with h0 | h1
          · exact absurd h0 (List.not_mem_nil x)
          · exact Or.inr (List.mem_cons_of_mem c h1)
      · rcases ih false (c :: cur) part hp x hx with h0 | h1
        · rcases List.mem_cons.mp h0 with he | hcur
          · exact Or.inr (he ▸ List.mem_cons_self c rest)
          · exact Or.inl hcur
        · exact Or.inr (List.mem_cons_of_mem c h1)

/-- The faithful regex model and the spec-side grouped parser agree on every
newline-free cell. -/
theorem parseSingers_eq_specGrouped (v : String) (h : ('\n' : Char) ∉ v.data) :
    parseSingers v = specGroupedTokens v := by
  unfold parseSingers specGroupedTokens
  refine congrArg List.flatten (map_congr_mem _ _ _ ?_)
  intro part hpart
  have hpnl : ('\n' : Char) ∉ part := by
    intro hx
    rcases singerSplitAux_chars v.data false [] part hpart '\n' hx with
      h0 | h1
    · exact List.not_mem_nil _ h0
    · exact h h1
  have hspnl : ('\n' : Char) ∉ stripChars part := fun hx =>
    hpnl (mem_of_mem_stripChars _ _ hx)
  simp only [singerPartTokens, specPartTokens]
  rw [singerMatch_eq_specMatch (stripChars part) hspnl]

theorem idxOfOpen_decomp :
    ∀ (l : List Char) (j : Nat), idxOfOpen l = some j →
      l.take j ++ '[' :: l.drop (j + 1) = l := by
  intro l
  induction l with
  | nil => intro j h; simp [idxOfOpen] at h
  | cons d t ih =>
    intro j h
    unfold idxOfOpen at h
    split at h
    · rename_i hd
      rw [Option.some.injEq] at h
      subst h
      rw [beq_iff_eq] at hd
      subst hd
      rfl
    · rcases hio : idxOfOpen t with _ | j2
      · rw [hio] at h
        simp at h
      · rw [hio] at h
        simp at h
        subst h
        rw [List.take_succ_cons, List.drop_succ_cons]
        rw [List.cons_append]
        rw [ih j2 hio]

theorem getLast_append_ne (l2 : List Char) (h : l2 ≠ []) :
    ∀ l1 : List Char, (l1 ++ l2).getLast? = l2.getLast? := by
  intro l1
  induction l1 with
  | nil => rfl
  | cons a t ih =>
    rw [List.cons_append, getLast_cons_ne a (t ++ l2)
      (fun he => h (List.append_eq_nil.mp he).2), ih]

theorem eq_dropLast_append_getLast :
    ∀ (l : List Char) (z : Char), l.getLast? = some z → l = l.dropLast ++ [z] := by
  intro l
  induction l with
  | nil => intro z h; simp at h
  | cons a t ih =>
    intro z h
    cases t with
    | nil =>
      have : a = z := by
        have h2 : some a = some z := h
        exact Option.some_injective _ h2
      subst this
      rfl
    | cons b t2 =>
      rw [List.getLast?_cons_cons] at h
      have h2 := ih z h
      calc a :: b :: t2 = a :: ((b :: t2).dropLast ++ [z]) := by rw [← h2]
        _ = (a :: b :: t2).dropLast ++ [z] := rfl

/-- Soundness of the spec matcher: a match is exactly the claimed
decomposition `g1 ++ "[" ++ g2 ++ "]"` with both groups nonempty. -/
theorem specMatch_sound (p u b : List Char) (h : specMatch p = some (u, b)) :
    p = u ++ '[' :: (b ++ [']']) ∧ u ≠ [] ∧ b ≠ [] := by
  cases p with
  | nil =>
    have : specMatch [] = none := rfl
    rw [this] at h
    cases h
  | cons c tail =>
    rcases hio : idxOfOpen tail with _ | j
    · rw [specMatch_cons_none c tail hio] at h
      cases h
    · rw [specMatch_cons_some c tail j hio] at h
      split_ifs at h with hcond
      · rw [Option.some.injEq, Prod.mk.injEq] at h
        obtain ⟨hu, hb⟩ := h
        simp only [Bool.and_eq_true, beq_iff_eq, decide_eq_true_eq] at hcond
        obtain ⟨hlast, hlen⟩ := hcond
        have hdec := idxOfOpen_decomp tail j hio
        have hjlt := idxOfOpen_lt_length tail j hio
        simp only [List.length_cons] at hlen
        have hrest_len : (tail.drop (j + 1)).length = tail.length - (j + 1) :=
          List.length_drop (j + 1) tail
        have hrest_ne : tail.drop (j + 1) ≠ [] := by
          intro he
          rw [he] at hrest_len
          simp only [List.length_nil] at hrest_len
          omega
        have hplast : (c :: tail).getLast? = (tail.drop (j + 1)).getLast? := by
          conv_lhs =>
            rw [show c :: tail = (c :: tail.take j ++ ['[']) ++ tail.drop (j + 1) by
              rw [List.append_assoc]
              simp only [List.singleton_append]
              rw [List.cons_append]
              rw [hdec]]
          exact getLast_append_ne (tail.drop (j + 1)) hrest_ne (c :: tail.take j ++ ['['])
        rw [hlast] at hplast
        have hrest_eq : tail.drop (j + 1) = (tail.drop (j + 1)).dropLast ++ [']'] :=
          eq_dropLast_append_getLast (tail.drop (j + 1)) ']' hplast.symm
        have hb2 : b = (tail.drop (j + 1)).dropLast := by
          rw [← hb]
          rfl
        have hu2 : u = c :: tail.take j := by
          rw [← hu, List.take_succ_cons]
        refine ⟨?_, by rw [hu2]; simp, ?_⟩
        · rw [hu2, hb2, List.cons_append, ← hrest_eq, hdec]
        · intro he
          rw [he] at hb2
          have : (tail.drop (j + 1)).length = 1 := by
            rw [hrest_eq, ← hb2]
            rfl
          omega

theorem idxOfOpen_cons (a : Char) (t : List Char) :
    idxOfOpen (a :: t) =
      if a == '[' then some 0 else (idxOfOpen t).map (fun j => j + 1) := rfl

theorem idxOfOpen_append_le :
    ∀ (l1 l2 : List Char), ∃ j, idxOfOpen (l1 ++ '[' :: l2) = some j ∧ j ≤ l1.length := by
  intro l1 l2
  induction l1 with
  | nil => exact ⟨0, by simp [idxOfOpen], Nat.le_refl 0⟩
  | cons a t ih =>
    obtain ⟨j, hio, hle⟩ := ih
    by_cases ha : a = '['
    · refine ⟨0, ?_, Nat.zero_le _⟩
      rw [List.cons_append, idxOfOpen_cons]
      rw [if_pos (by simpa using ha)]
    · refine ⟨j + 1, ?_, by simpa using Nat.succ_le_succ hle⟩
      rw [List.cons_append, idxOfOpen_cons]
      rw [if_neg (by simpa using ha), hio]
      rfl

/-- Completeness of the spec matcher: no match means no admissible
decomposition exists at all. -/
theorem specMatch_complete (p : List Char) (h : specMatch p = none) :
    ∀ u b : List Char, u ≠ [] → b ≠ [] → p ≠ u ++ '[' :: (b ++ [']']) := by
  intro u b hu hb heq
  cases u with
  | nil => exact hu rfl
  | cons uh ut =>
    rw [List.cons_append] at heq
    subst heq
    obtain ⟨j, hio, hle⟩ := idxOfOpen_append_le ut (b ++ [']'])
    rw [specMatch_cons_some uh _ j hio] at h
    split_ifs at h with hcond
    have hlast : (uh :: (ut ++ '[' :: (b ++ [']']))).getLast? = some ']' := by
      have hshape : uh :: (ut ++ '[' :: (b ++ [']'])) =
          (uh :: (ut ++ '[' :: b)) ++ [']'] := by simp
      rw [hshape, getLast_append_ne [']'] (by simp)]
      rfl
    have hblen : 1 ≤ b.length := by
      cases b with
      | nil => exact absurd rfl hb
      | cons y ys => simp
    have hlen2 : j + 4 ≤ (uh :: (ut ++ '[' :: (b ++ [']']))).length := by
      simp only [List.length_cons, List.length_append]
      omega
    refine hcond ?_
    simp only [Bool.and_eq_true, beq_iff_eq, decide_eq_true_eq]
    exact ⟨hlast, hlen2⟩

/-!  Concrete configurations used to exercise the processor. -/

/-- One default (neither singer nor brand) array column at label `A`. -/
def cfg1 : SheetConfig :=
  { data_start_row := 1, end_check_start := "A", end_check_end := "A",
    column_mapping := [("A", { key := "tags", is_array := true })],
    ignore_values := [] }

/-- A column mapping whose label is the empty string, as `_col_to_index`
receives it when the configuration holds an empty label. -/
def cfgEmptyLabel : SheetConfig :=
  { data_start_row := 1, end_check_start := "A", end_check_end := "A",
    column_mapping := [("", { key := "title", is_array := false })],
    ignore_values := [] }

/-- One brand (cross-brand capable) array column at label `A`. -/
def cfgBrand : SheetConfig :=
  { data_start_row := 1, end_check_start := "A", end_check_end := "A",
    column_mapping := [("A", { key := "ブランド", is_array := true })],
    ignore_values := [] }

/-- A two-column well-formed configuration with a header row. -/
def cfgW : SheetConfig :=
  { data_start_row := 2, end_check_start := "A", end_check_end := "B",
    column_mapping :=
      [("A", { key := "ID", is_array := false }),
       ("B", { key := "tags", is_array := true })],
    ignore_values := ["未定"] }

theorem processCols_cons (cfg : SheetConfig) (row : List String) (col : String)
    (m : ColMap) (rest : List (String × ColMap)) (rec : Record) (value : String)
    (hval : getCellValue row (colToIndex col) = .ok value) :
    processCols cfg row ((col, m) :: rest) rec =
      if (value == "" || memB value cfg.ignore_values) = true then
        processCols cfg row rest rec
      else if m.is_array = true then
        match recExtend rec m.key (arrayTokens m.key value) with
        | .error e => .error e
        | .ok rec2 => processCols cfg row rest rec2
      else processCols cfg row rest (recSet rec m.key (PyVal.str value)) := by
  conv_lhs => unfold processCols
  rw [hval]

theorem recSet_single (k : String) (v w : PyVal) :
    recSet [(k, v)] k w = [(k, w)] := by
  unfold recSet
  rw [if_pos rfl]

theorem dedupPass_single (k : String) (ts : List String) :
    dedupPass [k] [(k, PyVal.arr ts)] = [(k, PyVal.arr (dedupFirst ts))] := by
  have hget : recGet [(k, PyVal.arr ts)] k = some (PyVal.arr ts) := by
    unfold recGet
    rw [if_pos rfl]
  have hstep : dedupPass [k] [(k, PyVal.arr ts)] = dedupStep [(k, PyVal.arr ts)] k := rfl
  rw [hstep]
  unfold dedupStep
  rw [hget]
  cases ts with
  | nil => rfl
  | cons t1 t2 =>
    show recSet [(k, PyVal.arr (t1 :: t2))] k (PyVal.arr (dedupFirst (t1 :: t2))) =
      [(k, PyVal.arr (dedupFirst (t1 :: t2)))]
    exact recSet_single k _ _

theorem getCellValue_cons_zero (v : String) (rest : List String) :
    getCellValue (v :: rest) 0 = .ok (if v == "" then "" else pyStrip v) := by
  unfold getCellValue
  rw [if_pos (by exact_mod_cast Nat.succ_pos rest.length)]
  unfold pyListGet
  rw [if_pos le_rfl]
  simp

theorem processRow_single_array (cfg : SheetConfig) (col : String) (m : ColMap)
    (hmap : cfg.column_mapping = [(col, m)]) (harr : m.is_array = true)
    (hign : cfg.ignore_values = [])
    (row : List String) (value : String)
    (hval : getCellValue row (colToIndex col) = .ok value) (hne : value ≠ "") :
    processRow cfg row = .ok (dedupPass (arrayKeysOf cfg)
      (recSet (initRecord cfg) m.key (PyVal.arr (arrayTokens m.key value)))) := by
  have hkmem : m.key ∈ arrayKeysOf cfg :=
    mem_arrayKeysOf_of_isArray cfg (col, m)
      (by rw [hmap]; exact List.mem_singleton.mpr rfl) harr
  have hinit := initRecord_arr cfg m.key hkmem
  have hskip : (value == "" || memB value cfg.ignore_values) = false := by
    rw [beq_eq_false_iff_ne.mpr hne, hign]
    rfl
  have hext : recExtend (initRecord cfg) m.key (arrayTokens m.key value) =
      .ok (recSet (initRecord cfg) m.key (PyVal.arr (arrayTokens m.key value))) := by
    unfold recExtend
    rw [hinit]
    rfl
  unfold processRow
  rw [hmap, processCols_cons cfg row col m [] (initRecord cfg) value hval]
  rw [if_neg (by simp [hskip]), if_pos harr, hext]
  rfl

theorem processRow_single_array_full (cfg : SheetConfig) (col key : String)
    (hmap : cfg.column_mapping = [(col, { key := key, is_array := true })])
    (hign : cfg.ignore_values = [])
    (hinit : initRecord cfg = [(key, PyVal.arr [])])
    (hak : arrayKeysOf cfg = [key])
    (row : List String) (value : String)
    (hval : getCellValue row (colToIndex col) = .ok value) (hne : value ≠ "") :
    processRow cfg row = .ok [(key, PyVal.arr (dedupFirst (arrayTokens key value)))] := by
  have h1 := processRow_single_array cfg col { key := key, is_array := true }
    hmap rfl hign row value hval hne
  rw [h1, hinit]
  rw [show ({ key := key, is_array := true } : ColMap).key = key from rfl]
  rw [recSet_single, hak, dedupPass_single]

theorem process_ok_elim (cfg : SheetConfig) (grid : List (List String))
    (recs : List Record) (h : process cfg grid = .ok recs) :
    ∃ pre, collectTop cfg grid = .ok pre ∧ recs = sortDesc pre := by
  unfold process at h
  split at h
  · cases h
  · rename_i pre hp
    rw [Except.ok.injEq] at h
    exact ⟨pre, hp, h.symm⟩

theorem sortKey_id_none (r : Record) (hr : recGet r "ID" = none) : sortKey r = 0 := by
  unfold sortKey
  rw [hr]

theorem sortKey_id_str (r : Record) (s : String)
    (hr : recGet r "ID" = some (PyVal.str s)) :
    sortKey r = (pyParseInt s).getD 0 := by
  unfold sortKey
  rw [hr]
  show (match pyParseInt s with | some n => n | none => 0) = (pyParseInt s).getD 0
  cases pyParseInt s <;> rfl

theorem processRowEmptyLabel (row : List String) (hrow : row ≠ []) :
    processRow cfgEmptyLabel row =
      .ok [("title", PyVal.str (pyStrip (row.getLast?.getD "")))] := by
  have hval : getCellValue row (colToIndex "") =
      .ok (pyStrip (row.getLast?.getD "")) := by
    have hci : colToIndex "" = -1 := rfl
    rw [hci]
    exact getCellValue_neg_one row hrow
  have hmap : cfgEmptyLabel.column_mapping =
      [("", { key := "title", is_array := false })] := rfl
  unfold processRow
  rw [hmap, processCols_cons cfgEmptyLabel row "" _ [] (initRecord cfgEmptyLabel) _ hval]
  by_cases hemp : pyStrip (row.getLast?.getD "") = ""
  · rw [if_pos (by rw [beq_iff_eq.mpr hemp]; rfl), hemp]
    rfl
  · rw [if_neg (by rw [beq_eq_false_iff_ne.mpr hemp]; simp [memB])]
    rfl

/-!  The claims. -/

/-- C1 (corrected), counterexample: in a default (non-singer, non-brand)
array column the source splits on every comma — `value.split(",")`, not the
bracket-aware `SINGER_SPLIT_PATTERN` — so the cell `"A[1,2], B"` produces
the tokens `["A[1", "2]", "B"]` and not `["A[1,2]", "B"]` as the claim
states. -/
theorem defaultArraySplitNotBracketAware :
    processRow cfg1 ["A[1,2], B"] = .ok [("tags", PyVal.arr ["A[1", "2]", "B"])] ∧
    (["A[1", "2]", "B"] : List String) ≠ ["A[1,2]", "B"] :=
  ⟨rfl, by decide⟩

/-- C1 (amended): for every default array cell, the trimmed cell value is
split on every comma (bracket-unaware), each piece trimmed, empty pieces
dropped, and the result deduplicated; in particular `"A[1,2], B"` yields
`["A[1", "2]", "B"]`. -/
theorem defaultArraySplitPlain (v : String) (h : pyStrip v ≠ "") :
    processRow cfg1 [v] = .ok [("tags", PyVal.arr (dedupFirst (defaultSplit (pyStrip v))))] ∧
    defaultSplit "A[1,2], B" = ["A[1", "2]", "B"] := by
  refine ⟨?_, rfl⟩
  have hv : (v == "") = false := by
    rw [beq_eq_false_iff_ne]
    intro he
    exact h (by rw [he]; rfl)
  have hval : getCellValue [v] (colToIndex "A") = .ok (pyStrip v) := by
    rw [show colToIndex "A" = 0 from by decide, getCellValue_cons_zero, hv]
    rfl
  have h1 := processRow_single_array_full cfg1 "A" "tags" rfl rfl rfl rfl [v]
    (pyStrip v) hval h
  rw [h1]
  have htok : arrayTokens "tags" (pyStrip v) = defaultSplit (pyStrip v) := by
    unfold arrayTokens
    rw [if_neg (by decide), if_neg (by rw [show ("tags" == "ブランド") = false from by decide]; simp)]
  rw [htok]

/-- C1 witness: a concrete default array cell through the amended claim. -/
theorem defaultArraySplitPlain_witness :
    pyStrip " x, y " ≠ "" ∧
    (processRow cfg1 [" x, y "] =
        .ok [("tags", PyVal.arr (dedupFirst (defaultSplit (pyStrip " x, y "))))] ∧
      defaultSplit "A[1,2], B" = ["A[1", "2]", "B"]) :=
  ⟨by decide, defaultArraySplitPlain " x, y " (by decide)⟩

/-- C2 (corrected), counterexample: the empty column label decodes to `-1`
with no error of any kind, and `process` on a configuration holding that
label runs to completion and produces records — there is no
`InvalidColumnLabel` error and no eager validation in the source. -/
theorem emptyLabelProcessSucceeds :
    process cfgEmptyLabel [["hello"]] = .ok [[("title", PyVal.str "hello")]] ∧
    colToIndex "" = -1 :=
  ⟨rfl, rfl⟩

/-- C2 (amended): decoding a column label never fails — `_col_to_index` is
total, the empty label decoding to `-1` — and `process` performs no label
validation: with an empty label configured it still processes every row of
a grid of nonempty rows and returns a result. -/
theorem labelDecodingNeverFails (grid : List (List String))
    (h : ∀ row ∈ grid, row ≠ []) :
    colToIndex "" = -1 ∧ ∃ recs, process cfgEmptyLabel grid = .ok recs := by
  refine ⟨rfl, ?_⟩
  suffices hs : ∀ rows : List (List String), (∀ row ∈ rows, row ≠ []) →
      ∃ rs, collectRows cfgEmptyLabel rows = .ok rs by
    obtain ⟨rs, hrs⟩ := hs (pySliceFrom grid (cfgEmptyLabel.data_start_row - 1))
      (fun row hrow => h row (List.mem_of_mem_drop hrow))
    refine ⟨sortDesc rs, ?_⟩
    unfold process collectTop
    rw [hrs]
  intro rows
  induction rows with
  | nil => intro _; exact ⟨[], rfl⟩
  | cons row rest ih =>
    intro hall
    by_cases hend : isEndRow cfgEmptyLabel row
    · refine ⟨[], ?_⟩
      unfold collectRows
      rw [if_pos hend]
    · obtain ⟨rs, hrs⟩ := ih (fun r hr => hall r (List.mem_cons_of_mem row hr))
      have hrow := processRowEmptyLabel row (hall row (List.mem_cons_self row rest))
      refine ⟨[("title", PyVal.str (pyStrip (row.getLast?.getD "")))] :: rs, ?_⟩
      unfold collectRows
      rw [if_neg hend, hrow, hrs]

/-- C2 witness: a concrete grid of nonempty rows through the amended claim. -/
theorem labelDecodingNeverFails_witness :
    (∀ row ∈ ([["x"], ["y"]] : List (List String)), row ≠ []) ∧
    (colToIndex "" = -1 ∧ ∃ recs, process cfgEmptyLabel [["x"], ["y"]] = .ok recs) :=
  ⟨by decide, labelDecodingNeverFails [["x"], ["y"]] (by decide)⟩

/-- C3 (confirmed): under a well-formed configuration (valid letter labels,
consistent per-key array flags — the class of configurations the spec calls
valid), row normalization is total: `_process_row` returns a record on every
row whatever the cells hold (malformed brackets, non-numeric IDs, ragged
rows), `process` returns a result on every grid — no bad cell aborts the
row or the table — and a missing (out-of-bounds) cell reads as the empty
string. -/
theorem rowNormalizationNeverRaises (cfg : SheetConfig) (grid : List (List String))
    (hwf : wfConfig cfg = true) :
    (∀ row : List String, ∃ rec, processRow cfg row = .ok rec) ∧
    (∃ recs, process cfg grid = .ok recs) ∧
    (∀ (row : List String) (i : Int), (row.length : Int) ≤ i →
      getCellValue row i = .ok "") := by
  refine ⟨fun row => processRow_total cfg hwf row, ?_,
    fun row i hi => getCellValue_oob row i hi⟩
  refine ⟨sortDesc (((pySliceFrom grid (cfg.data_start_row - 1)).takeWhile
    (fun row => !(isEndRow cfg row))).map (procD cfg)), ?_⟩
  unfold process collectTop
  rw [collectRows_eq_takeWhile cfg hwf]

/-- C3 witness: a well-formed configuration and grid with malformed cells. -/
theorem rowNormalizationNeverRaises_witness :
    wfConfig cfgW = true ∧
    (∃ recs, process cfgW [["head", "x"], ["abc", "a[b, ]x"], ["", "y,"]] = .ok recs) :=
  ⟨by decide,
    (rowNormalizationNeverRaises cfgW [["head", "x"], ["abc", "a[b, ]x"], ["", "y,"]]
      (by decide)).2.1⟩

/-- C4 (confirmed): under a well-formed configuration, `process` is exactly
the map of `_process_row` over the rows of the data slice strictly before
the first row whose check-range cells all strip to empty (out-of-bounds
cells counting as empty via slicing), sorted at the end: the first terminal
row and everything after it contribute no record, whatever they contain,
and every earlier row contributes exactly one record. -/
theorem processStopsAtFirstEmptyCheckRange (cfg : SheetConfig)
    (grid : List (List String)) (hwf : wfConfig cfg = true) :
    process cfg grid = .ok (sortDesc (((pySliceFrom grid (cfg.data_start_row - 1)).takeWhile
      (fun row => !(isEndRow cfg row))).map (procD cfg))) := by
  unfold process collectTop
  rw [collectRows_eq_takeWhile cfg hwf]

/-- C4 witness: a grid with a blank row in the middle; the rows after it
are discarded. -/
theorem processStopsAtFirstEmptyCheckRange_witness :
    process cfgW [["head", "x"], ["5", "a"], ["  ", ""], ["9", "c"]] =
      .ok (sortDesc (((pySliceFrom [["head", "x"], ["5", "a"], ["  ", ""], ["9", "c"]]
        (cfgW.data_start_row - 1)).takeWhile
          (fun row => !(isEndRow cfgW row))).map (procD cfgW))) :=
  processStopsAtFirstEmptyCheckRange cfgW
    [["head", "x"], ["5", "a"], ["  ", ""], ["9", "c"]] (by decide)

/-- C5 (confirmed): the record list `process` returns is sorted descending
by `_sort_key` (the integer value of the `ID` field, 0 when the field is
missing, non-string, or fails to parse), and the sort is stable: the output
is a permutation of the collected pre-sort list that leaves the relative
order inside every equal-key class unchanged. -/
theorem processSortedDescStable (cfg : SheetConfig) (grid : List (List String))
    (recs : List Record) (h : process cfg grid = .ok recs) :
    recs.Pairwise (fun a b => sortKey b ≤ sortKey a) ∧
    (∃ pre, collectTop cfg grid = .ok pre ∧ recs.Perm pre ∧
      ∀ v : Int, recs.filter (fun r => sortKey r == v) =
        pre.filter (fun r => sortKey r == v)) ∧
    (∀ r : Record, recGet r "ID" = none → sortKey r = 0) ∧
    (∀ (r : Record) (s : String), recGet r "ID" = some (PyVal.str s) →
      sortKey r = (pyParseInt s).getD 0) := by
  obtain ⟨pre, hp, heq⟩ := process_ok_elim cfg grid recs h
  subst heq
  exact ⟨sortDesc_sorted pre,
    ⟨pre, hp, sortDesc_perm pre, fun v => sortDesc_stable v pre⟩,
    fun r hr => sortKey_id_none r hr,
    fun r s hr => sortKey_id_str r s hr⟩

/-- C5 witness: the sortedness conclusion at a concrete processed grid with
IDs in ascending input order. -/
theorem processSortedDescStable_witness :
    ([[("ID", PyVal.str "10"), ("tags", PyVal.arr ["b"])],
      [("ID", PyVal.str "5"), ("tags", PyVal.arr ["a"])]] : List Record).Pairwise
      (fun a b => sortKey b ≤ sortKey a) :=
  (processSortedDescStable cfgW [["head", "x"], ["5", "a"], ["10", "b"]]
    [[("ID", PyVal.str "10"), ("tags", PyVal.arr ["b"])],
     [("ID", PyVal.str "5"), ("tags", PyVal.arr ["a"])]] rfl).1

/-- C6 (confirmed): every list-valued field of every record `process`
returns is duplicate-free, and the deduplication is first-occurrence,
order-preserving: `dedupFirst` keeps the head and recursively drops every
later copy of it. -/
theorem arrayFieldsDeduplicatedFirstOccurrence :
    (∀ (cfg : SheetConfig) (grid : List (List String)) (recs : List Record),
      process cfg grid = .ok recs → ∀ rec ∈ recs, ∀ (k : String) (xs : List String),
        recGet rec k = some (PyVal.arr xs) → xs.Nodup) ∧
    (∀ (x : String) (l : List String),
      dedupFirst (x :: l) = x :: dedupFirst (l.filter (fun y => !(y == x)))) := by
  refine ⟨?_, fun x l => dedupFirst_cons_filter x l⟩
  intro cfg grid recs h rec hrec k xs hget
  obtain ⟨pre, hp, heq⟩ := process_ok_elim cfg grid recs h
  subst heq
  have hmem : rec ∈ pre := (sortDesc_perm pre).mem_iff.mp hrec
  unfold collectTop at hp
  obtain ⟨row, hrow⟩ := collectRows_mem cfg _ pre hp rec hmem
  exact processRow_arrNodup cfg row rec hrow k xs hget

/-- C6 witness: a duplicated cell yields a duplicate-free array field. -/
theorem arrayFieldsDeduplicatedFirstOccurrence_witness :
    (["a", "b"] : List String).Nodup :=
  arrayFieldsDeduplicatedFirstOccurrence.1 cfg1 [["a, a, b"]]
    [[("tags", PyVal.arr ["a", "b"])]] rfl
    [("tags", PyVal.arr ["a", "b"])] (by simp) "tags" ["a", "b"] rfl

/-- C7 (confirmed): on every newline-free cell (`.` in the source regex
does not cross a newline, and the code only ever matches pre-stripped
text), `_parse_singers` equals the spec-side grouped parser: bracket-aware
top-level split, then per part either the `<g1>[<g2>]` expansion — trimmed
g1 followed by the trimmed nonempty members of g2 split on plain commas —
or the trimmed part verbatim; `specMatch` is sound and complete for the
claim's end-anchored decomposition with nonempty groups; and
`"GroupX[Mem1, Mem2]"` parses to `["GroupX", "Mem1", "Mem2"]`. -/
theorem singerCellGroupedParsing :
    (∀ v : String, ('\n' : Char) ∉ v.data → parseSingers v = specGroupedTokens v) ∧
    (∀ p u b : List Char, specMatch p = some (u, b) →
      p = u ++ '[' :: (b ++ [']']) ∧ u ≠ [] ∧ b ≠ []) ∧
    (∀ p : List Char, specMatch p = none →
      ∀ u b : List Char, u ≠ [] → b ≠ [] → p ≠ u ++ '[' :: (b ++ [']'])) ∧
    parseSingers "GroupX[Mem1, Mem2]" = ["GroupX", "Mem1", "Mem2"] :=
  ⟨parseSingers_eq_specGrouped, specMatch_sound, specMatch_complete, rfl⟩

/-- C7 witness: the equivalence at a concrete singer cell. -/
theorem singerCellGroupedParsing_witness :
    parseSingers "A, B[C, D]" = specGroupedTokens "A, B[C, D]" :=
  singerCellGroupedParsing.1 "A, B[C, D]" (by decide)

/-- C8 (confirmed): a brand array cell whose trimmed value contains the
marker `越境` anywhere as a substring is split on `:`, the parts trimmed,
empty parts and parts equal to the marker dropped, the rest kept in order
and deduplicated; containment is a substring test, so the marker embedded
in a larger word triggers the colon split too, while without the marker the
default comma split applies. -/
theorem brandCrossoverSubstringSplit :
    (∀ w : String, pyStrip w ≠ "" → hasSubChars "越境".data (pyStrip w).data = true →
      processRow cfgBrand [w] =
        .ok [("ブランド", PyVal.arr (dedupFirst (brandSplit (pyStrip w))))]) ∧
    brandSplit "A:越境: B " = ["A", "B"] ∧
    arrayTokens "ブランド" "X, Y越境" = ["X, Y越境"] ∧
    arrayTokens "ブランド" "X, Y" = ["X", "Y"] := by
  refine ⟨?_, rfl, rfl, rfl⟩
  intro w hw hsub
  have hv : (w == "") = false := by
    rw [beq_eq_false_iff_ne]
    intro he
    exact hw (by rw [he]; rfl)
  have hval : getCellValue [w] (colToIndex "A") = .ok (pyStrip w) := by
    rw [show colToIndex "A" = 0 from by decide, getCellValue_cons_zero, hv]
    rfl
  have h1 := processRow_single_array_full cfgBrand "A" "ブランド" rfl rfl rfl rfl [w]
    (pyStrip w) hval hw
  rw [h1]
  have htok : arrayTokens "ブランド" (pyStrip w) = brandSplit (pyStrip w) := by
    unfold arrayTokens
    rw [if_neg (by decide), if_pos (by rw [show ("ブランド" == "ブランド") = true from by decide, hsub]; rfl)]
  rw [htok]

/-- C8 witness: a concrete crossover cell through the theorem. -/
theorem brandCrossoverSubstringSplit_witness :
    pyStrip "A:越境:B" ≠ "" ∧
    processRow cfgBrand ["A:越境:B"] =
      .ok [("ブランド", PyVal.arr (dedupFirst (brandSplit (pyStrip "A:越境:B"))))] :=
  ⟨by decide, brandCrossoverSubstringSplit.1 "A:越境:B" (by decide) (by decide)⟩

/-- C9 (confirmed): on a nonempty label of uppercase letters,
`_col_to_index` is the base-26 value with digit values A=1 … Z=26,
most-significant letter first, minus 1; the result depends only on the
uppercased characters (so any lowercase variant of a label decodes to the
same index); and `"A"`, `"Z"`, `"AA"`, `"aa"` decode to 0, 25, 26, 26. -/
theorem colToIndexBase26 :
    (∀ s : String, s ≠ "" → (∀ c ∈ s.data, 65 ≤ c.toNat ∧ c.toNat ≤ 90) →
      colToIndex s = (specBase26 s.data : Int) - 1) ∧
    (∀ s t : String, List.Forall₂ (fun c d => upperOrd c = upperOrd d) s.data t.data →
      colToIndex s = colToIndex t) ∧
    colToIndex "A" = 0 ∧ colToIndex "Z" = 25 ∧ colToIndex "AA" = 26 ∧
    colToIndex "aa" = 26 ∧ colToIndex "aA" = colToIndex "AA" := by
  refine ⟨?_, ?_, by decide, by decide, by decide, by decide, by decide⟩
  · intro s _ hall
    unfold colToIndex specBase26
    have h2 := colFold_upper_eq_spec s.data 0 hall
    rw [Nat.cast_zero] at h2
    rw [h2]
  · intro s t hf
    unfold colToIndex
    rw [colFold_congr s.data t.data hf 0]

/-- C9 witness: the base-26 formula and case-insensitivity at `"AB"`. -/
theorem colToIndexBase26_witness :
    colToIndex "AB" = (specBase26 "AB".data : Int) - 1 ∧
    colToIndex "ab" = colToIndex "AB" :=
  ⟨colToIndexBase26.1 "AB" (by decide) (by decide),
    colToIndexBase26.2.1 "ab" "AB"
      (List.Forall₂.cons (by decide) (List.Forall₂.cons (by decide) List.Forall₂.nil))⟩

/-- C10 (confirmed): the empty column label decodes to `-1` without error,
and on every nonempty row `_process_row` with that label reads the row's
last cell — Python's negative indexing, admitted by the guard
`col_idx < len(row)` — as the column's value rather than treating the cell
as empty or rejecting the label. -/
theorem emptyLabelReadsLastCell :
    colToIndex "" = -1 ∧
    ∀ row : List String, row ≠ [] →
      processRow cfgEmptyLabel row =
        .ok [("title", PyVal.str (pyStrip (row.getLast?.getD "")))] :=
  ⟨rfl, processRowEmptyLabel⟩

/-- C10 witness: the last cell of a concrete two-cell row is read and
stripped. -/
theorem emptyLabelReadsLastCell_witness :
    processRow cfgEmptyLabel ["a", " b "] =
      .ok [("title", PyVal.str (pyStrip ((["a", " b "] : List String).getLast?.getD "")))] :=
  emptyLabelReadsLastCell.2 ["a", " b "] (by decide)
